import Mathlib

/-!
# Verification of the audio segmentation and chunked-transcription pipeline

Shallow embedding of the core pipeline of `src/services/geminiService.ts`:
the timestamp-scale detector, the fixed-schedule and VAD segmenters, the
transcript merge/publish steps, the per-chunk retry loop, and the epoch-based
cancellation behaviour of the worker loop.

Conventions used throughout:
* JavaScript numbers are modelled as exact rationals (`ℚ`); numeric literals
  such as `0.2`, `1.5`, `0.5` are the exact rationals `1/5`, `3/2`, `1/2`.
  All comparisons in the modelled code paths are float-exact at the inputs
  considered here, so no rounding behaviour is lost.
* Sample indices and counts are natural numbers; the sample rate is fixed to
  16000 exactly as in every call site of the source (`SAMPLE_RATE = 16000`).
* JS `Array.prototype.sort` (stable, ascending by the comparator
  `(a, b) => a.start - b.start`) is modelled by `List.insertionSort`, which is
  also stable; two stable sorts with the same total preorder agree on every
  input list.
* Unbounded `while` loops are modelled by structural recursion on a fuel
  argument; the wrappers pass a fuel that exceeds the possible number of
  iterations (each iteration strictly advances a position bounded by the
  input length), so the fuel is never exhausted on the executions modelled.
-/

/-- `ChunkDefinition` of the source (field `end` is renamed `stop`; `end` is a
reserved word): a window of the waveform in absolute sample indices. -/
structure ChunkDefinition where
  index : ℕ
  start : ℕ
  stop : ℕ
deriving DecidableEq, Repr

/-- `SubtitleSegment` of `src/types.ts` (field `end` renamed `stop`): absolute
times in seconds. -/
structure SubtitleSegment where
  id : ℕ
  start : ℚ
  stop : ℚ
  text : String
deriving DecidableEq, Repr

/-- A backend-reported raw segment `{start, end, text}` (field `end` renamed
`stop`), with the timestamps already numeric: `parseTimestamp` (line 1291) is
the identity on numbers, which is the case relevant to the claims here. -/
structure RawSeg where
  start : ℚ
  stop : ℚ
  text : String
deriving DecidableEq, Repr

/-- One element of the in-process worker's `partial` payload:
`{text, timestamp: [t0, t1]}` (lines 1040-1047). -/
structure RawChunk where
  text : String
  t0 : ℚ
  t1 : ℚ
deriving DecidableEq, Repr

/-! ## TimestampScaleDetector (`detectTimeScale`, lines 1324-1357) -/

/-- The filter on line 1325-1329: keep segments with `end > start` and
positive duration (the two conditions coincide over exact arithmetic). -/
def parsedSegs (segments : List RawSeg) : List RawSeg :=
  segments.filter fun s => decide (s.start < s.stop) && decide (0 < s.stop - s.start)

/-- Mean raw duration over the parsed segments (line 1332). -/
def avgDurOf (parsed : List RawSeg) : ℚ :=
  ((parsed.map fun s => s.stop - s.start).sum) / parsed.length

/-- `Math.max(...parsed.map(s => s.end))` over a non-empty list (line 1333). -/
def maxEndOf : List RawSeg → ℚ
  | [] => 0
  | s :: rest => (rest.map fun t => t.stop).foldl max s.stop

/-- The candidate scales, in source order (line 1334). -/
def timeScaleCandidates : List ℚ := [1, 1/100, 1/1000]

/-- First minimiser of `f` over `a :: l`: keeps the earlier element on ties.
This is what `[...].sort((x, y) => f x - f y)[0]` returns, since JS sort is
stable and the first element of a stably sorted list is the first minimiser. -/
def firstMinBy (f : ℚ → ℚ) : ℚ → List ℚ → ℚ
  | a, [] => a
  | a, x :: xs => if f x < f a then firstMinBy f x xs else firstMinBy f a xs

/-- The candidate filter on lines 1336-1342, as a proposition:
scaled mean duration in `[0.2, 30]` and scaled max end at most `1.5×` the
chunk duration. -/
def scaleValid (avgDur maxEnd chunkDuration scale : ℚ) : Prop :=
  1/5 ≤ avgDur * scale ∧ avgDur * scale ≤ 30 ∧ maxEnd * scale ≤ chunkDuration * (3/2)

instance (avgDur maxEnd chunkDuration scale : ℚ) :
    Decidable (scaleValid avgDur maxEnd chunkDuration scale) := by
  unfold scaleValid; infer_instance

/-- `detectTimeScale(segments, chunkDuration)`, lines 1324-1357, translated
clause by clause. -/
def detectTimeScale (segments : List RawSeg) (chunkDuration : ℚ) : ℚ :=
  let parsed := parsedSegs segments
  if parsed.isEmpty then 1
  else
    let avgDur := avgDurOf parsed
    let maxEnd := maxEndOf parsed
    let validCandidates := timeScaleCandidates.filter fun scale =>
      decide (scaleValid avgDur maxEnd chunkDuration scale)
    match validCandidates with
    | [c] => c
    | c :: cs => firstMinBy (fun s => |avgDur * s - 3|) c cs
    | [] => firstMinBy (fun s => |maxEnd * s - chunkDuration|) 1 [1/100, 1/1000]

/-- Multiply a raw segment's timestamps by `k` (used to state the
seconds / centiseconds / milliseconds round-trip property). -/
def scaleRawBy (k : ℚ) (s : RawSeg) : RawSeg :=
  { s with start := k * s.start, stop := k * s.stop }

/-! ## Fixed-schedule segmenter (`getFixedChunks`, lines 1599-1639) -/

/-- `CHUNK_SCHEDULE_ENDS = [20, 60, 180]` (line 1601), accessed by index. -/
def chunkScheduleEnds : ℕ → ℕ
  | 0 => 20
  | 1 => 60
  | _ => 180

/-- The test-mode limit check at the top of the fixed loop (line 1611):
`limitSec !== undefined && currentSampleOffset / sampleRate >= limitSec`. -/
def fixedLimitStop (limitSec : Option ℚ) (cur sampleRate : ℕ) : Bool :=
  match limitSec with
  | none => false
  | some l => decide (l ≤ (cur : ℚ) / sampleRate)

/-- The `while` loop of `getFixedChunks` (lines 1609-1638).  Structural
recursion on `fuel`; every iteration strictly increases `cur` (given
`0 < sampleRate`), so fuel `total + 1` is never exhausted. -/
def fixedLoopF (total sampleRate : ℕ) (limitSec : Option ℚ) :
    ℕ → ℕ → ℕ → ℕ → List ChunkDefinition
  | 0, _, _, _ => []
  | fuel + 1, cur, schedIdx, gIdx =>
    if cur < total then
      if fixedLimitStop limitSec cur sampleRate then []
      else
        let raw :=
          if schedIdx < 3 then
            let e := chunkScheduleEnds schedIdx * sampleRate
            if e ≤ cur then cur + 180 * sampleRate else e
          else cur + 180 * sampleRate
        let chunkEnd := min raw total
        if chunkEnd ≤ cur then []
        else
          ⟨gIdx, cur, chunkEnd⟩ :: fixedLoopF total sampleRate limitSec fuel chunkEnd (schedIdx + 1) (gIdx + 1)
    else []

/-- `getFixedChunks(audioData, sampleRate, limitSec)` (lines 1599-1639): the
full list of chunks the generator yields. -/
def getFixedChunks (audioData : List ℚ) (sampleRate : ℕ) (limitSec : Option ℚ) :
    List ChunkDefinition :=
  fixedLoopF audioData.length sampleRate limitSec (audioData.length + 1) 0 0 0

/-- The absolute-time schedule boundaries at 16 kHz, in samples: chunk `i`
is scheduled to end at `schedEnd16k i` (clamped to the waveform length):
20 s, 60 s, 180 s, then 180-second steps. -/
def schedEnd16k : ℕ → ℕ
  | 0 => 20 * 16000
  | 1 => 60 * 16000
  | n + 2 => 180 * 16000 * (n + 1)

/-! ## VAD segmenter (`getVADChunks` and helpers, lines 1368-1596) -/

/-- The silence test `calculateRMS(window) < threshold` (lines 1368-1374 and
1428).  Over the reals, `sqrt(sum x² / len) < t` holds iff `0 ≤ t` and
`sum x² < t² · len` (for an empty window both sides are false), so the test
is stated square-free of `sqrt`, which keeps it inside `ℚ`. -/
def windowIsSilent (w : List ℚ) (threshold : ℚ) : Bool :=
  decide (0 ≤ threshold) && decide ((w.map fun x => x * x).sum < threshold ^ 2 * w.length)

/-- The trailing-silence flush of `scanForSplitPoints` (lines 1447-1451). -/
def scanTrailing (minSilenceSamples : ℚ) (cur silStart : ℕ) : List ℕ :=
  if minSilenceSamples ≤ (cur : ℚ) then [silStart + cur / 2] else []

/-- The window loop of `scanForSplitPoints` (lines 1423-1445): 50 ms windows
(800 samples at the fixed 16 kHz rate), accumulating the current silence run
`cur` starting at `silStart`.

The source initialises `silenceStartIndex` to the sentinel `-1` and only
reads it when a run of silent windows has just been accumulated, which (for
`minSilenceSamples > 0`, as hypothesised by every theorem below) happens only
after `silStart` has been assigned a real window index; the sentinel is
therefore modelled by `0`, which is never read in those executions.

Structural recursion on `fuel`; `i` advances by 800 each iteration, so fuel
`audio.length + 1` is never exhausted. -/
def scanLoopF (audio : List ℚ) (minSilenceSamples threshold : ℚ) :
    ℕ → ℕ → ℕ → ℕ → List ℕ
  | 0, _, cur, silStart => scanTrailing minSilenceSamples cur silStart
  | fuel + 1, i, cur, silStart =>
    if i < audio.length then
      let e := min (i + 800) audio.length
      let w := (audio.drop i).take (e - i)
      if windowIsSilent w threshold then
        scanLoopF audio minSilenceSamples threshold fuel (i + 800) (cur + (e - i))
          (if cur = 0 then i else silStart)
      else
        if minSilenceSamples ≤ (cur : ℚ) then
          (silStart + cur / 2) ::
            scanLoopF audio minSilenceSamples threshold fuel (i + 800) 0 0
        else scanLoopF audio minSilenceSamples threshold fuel (i + 800) 0 0
    else scanTrailing minSilenceSamples cur silStart

/-- `scanForSplitPoints(audio, sampleRate = 16000, minSilenceSec, threshold)`
(lines 1410-1454), with `minSilenceSamples = minSilenceSec * 16000` taken
directly in samples. -/
def scanForSplitPoints (audio : List ℚ) (minSilenceSamples threshold : ℚ) : List ℕ :=
  scanLoopF audio minSilenceSamples threshold (audio.length + 1) 0 0 0

/-- The two cascaded single-pole IIR filters of `applyVocalFilter`
(lines 1378-1407), with state `(lastIn, lastOutHp, lastOutLp)`.  The source
computes the coefficients from the sample rate as
`alphaHp = rcHp / (rcHp + dt)` with `rcHp = 1/(2π·60)` and
`alphaLp = dt / (rcLp + dt)` with `rcLp = 1/(2π·6000)`; since `π ∉ ℚ` the two
coefficients are taken as parameters (no theorem below depends on their
values — the analysis buffer only feeds the silence scan). -/
def vocalFilterGo (alphaHp alphaLp : ℚ) : ℚ → ℚ → ℚ → List ℚ → List ℚ
  | _, _, _, [] => []
  | lastIn, lastOutHp, lastOutLp, x :: xs =>
    let hp := alphaHp * (lastOutHp + x - lastIn)
    let lp := lastOutLp + alphaLp * (hp - lastOutLp)
    lp :: vocalFilterGo alphaHp alphaLp x hp lp xs

/-- `applyVocalFilter(audio, sampleRate)` (lines 1378-1407). -/
def applyVocalFilter (alphaHp alphaLp : ℚ) (audio : List ℚ) : List ℚ :=
  vocalFilterGo alphaHp alphaLp 0 0 0 audio

/-- STEP 4 of `getVADChunks` (lines 1514-1540): walk the split points,
yielding a chunk for each candidate longer than 0.2 s
(`(endLocal - startLocal) / 16000 > 0.2`) and always advancing
`lastSplitLocal`.  Returns `(chunks, lastSplitLocal, globalIndex)`. -/
def yieldChunksFromSplits (bankStart : ℕ) :
    List ℕ → ℕ → ℕ → List ChunkDefinition × ℕ × ℕ
  | [], lastSplitLocal, gIdx => ([], lastSplitLocal, gIdx)
  | sp :: rest, lastSplitLocal, gIdx =>
    let startLocal := lastSplitLocal
    let endLocal := sp
    if 1/5 < ((endLocal - startLocal : ℕ) : ℚ) / 16000 then
      let c : ChunkDefinition := ⟨gIdx, bankStart + startLocal, bankStart + endLocal⟩
      let r := yieldChunksFromSplits bankStart rest endLocal (gIdx + 1)
      (c :: r.1, r.2.1, r.2.2)
    else yieldChunksFromSplits bankStart rest endLocal gIdx

/-- The limit test at the top of the VAD loop (line 1480) and the
`isLimitReached` test (line 1544): `ptr / 16000 ≥ limitSec`. -/
def vadLimitStop (limitSec : Option ℚ) (ptr : ℕ) : Bool :=
  match limitSec with
  | none => false
  | some l => decide (l ≤ (ptr : ℕ) / (16000 : ℚ))

/-- The `while` loop of `getVADChunks` (lines 1479-1594), at the fixed
16 kHz sample rate, with `batchSamples = batchSizeSec * 16000` taken directly
in samples.  State: `filePointer` (`fp`), `globalIndex` (`g`), the carry-over
bank `buffer` and its absolute start `bufferGlobalStart` (`bs`).

In the EOF / limit-reached branch the source empties the buffer and the next
loop test fails, so the recursion stops there; `batchSamples = 0` would make
the source loop forever, so that degenerate configuration is mapped to `[]`
and excluded by hypothesis in every theorem below.

Structural recursion on `fuel`; `fp` strictly increases per iteration, so
fuel `audioData.length + 1` is never exhausted. -/
def vadLoopF (audioData : List ℚ) (alphaHp alphaLp : ℚ) (batchSamples : ℕ)
    (minSilenceSamples silenceThreshold : ℚ) (filteringEnabled : Bool)
    (limitSec : Option ℚ) :
    ℕ → ℕ → ℕ → List ℚ → ℕ → List ChunkDefinition
  | 0, _, _, _, _ => []
  | fuel + 1, fp, g, buffer, bs =>
    if fp < audioData.length then
      if batchSamples = 0 then []
      else if vadLimitStop limitSec fp then []
      else
        let batchEnd := min (fp + batchSamples) audioData.length
        let newBatch := (audioData.drop fp).take (batchEnd - fp)
        let buf := buffer ++ newBatch
        let analysisBuffer :=
          if filteringEnabled then applyVocalFilter alphaHp alphaLp buf else buf
        let splitIndices := scanForSplitPoints analysisBuffer minSilenceSamples silenceThreshold
        let y := yieldChunksFromSplits bs splitIndices 0 g
        let yielded := y.1
        let lastSplitLocal := y.2.1
        let gIdx := y.2.2
        let leftoverSamples := buf.length - lastSplitLocal
        if audioData.length ≤ batchEnd || vadLimitStop limitSec batchEnd then
          yielded ++
            (if 0 < leftoverSamples then
              [⟨gIdx, bs + lastSplitLocal, bs + buf.length⟩]
            else [])
        else
          if 3 * batchSamples < leftoverSamples then
            yielded ++ ⟨gIdx, bs + lastSplitLocal, bs + buf.length⟩ ::
              vadLoopF audioData alphaHp alphaLp batchSamples minSilenceSamples
                silenceThreshold filteringEnabled limitSec fuel batchEnd (gIdx + 1) [] batchEnd
          else
            yielded ++
              vadLoopF audioData alphaHp alphaLp batchSamples minSilenceSamples
                silenceThreshold filteringEnabled limitSec fuel batchEnd gIdx
                (buf.drop lastSplitLocal) (bs + lastSplitLocal)
    else []

/-- `getVADChunks(audioData, 16000, batchSizeSec, minSilenceSec,
silenceThreshold, filteringEnabled, limitSec)` (lines 1457-1596): the full
list of chunks the generator yields. -/
def getVADChunks (audioData : List ℚ) (alphaHp alphaLp : ℚ) (batchSamples : ℕ)
    (minSilenceSamples silenceThreshold : ℚ) (filteringEnabled : Bool)
    (limitSec : Option ℚ) : List ChunkDefinition :=
  vadLoopF audioData alphaHp alphaLp batchSamples minSilenceSamples silenceThreshold
    filteringEnabled limitSec (audioData.length + 1) 0 0 [] 0

/-! ## Transcript merge and snapshot publication -/

/-- JS `String.prototype.toLowerCase` at the character level (the texts the
claims exercise are ASCII, where lowering is A-Z ↦ a-z). -/
def lowerChar (c : Char) : Char :=
  if 65 ≤ c.toNat ∧ c.toNat ≤ 90 then Char.ofNat (c.toNat + 32) else c

/-- JS `toLowerCase` over the string's character list. -/
def jsToLower (l : List Char) : List Char := l.map lowerChar

/-- The whitespace JS `trim` strips (the forms relevant here). -/
def jsIsSpace (c : Char) : Bool := c == ' ' || c == '\t' || c == '\n' || c == '\r'

/-- JS `String.prototype.trim`: drop whitespace at both ends. -/
def jsTrim (l : List Char) : List Char :=
  ((l.dropWhile jsIsSpace).reverse.dropWhile jsIsSpace).reverse

/-- JS `hay.includes(needle)`: some contiguous slice of `hay` equals
`needle`. -/
def listContains (hay needle : List Char) : Bool :=
  (List.range (hay.length + 1)).any fun i =>
    decide (needle = (hay.drop i).take needle.length)

/-- JS `hay.endsWith(tail)`. -/
def listEndsWith (hay tail : List Char) : Bool := tail.isSuffixOf hay

/-- The in-process path's text normalisation (lines 1127-1128):
`text.toLowerCase().replace(/[.,?!]/g, '').trim()`, as a character list. -/
def cleanTextIP (s : String) : List Char :=
  jsTrim ((jsToLower s.data).filter fun c =>
    !(c == '.' || c == ',' || c == '?' || c == '!'))

/-- The local-server path's text normalisation (lines 2041-2042):
`text.toLowerCase().trim()` — no punctuation removal. -/
def cleanTextLS (s : String) : List Char :=
  jsTrim (jsToLower s.data)

/-- The hallucination filter of the in-process path (lines 1106-1117). -/
def hallucinationFilter (s : SubtitleSegment) : Bool :=
  if s.text = "" then false
  else
    let t := jsTrim (jsToLower s.text.data)
    if t = "you".data || t = "thank you".data || t = "thanks for watching".data ||
        listContains t "subtitle by".data || t = ".".data then false
    else if decide (s.stop - s.start < 1/10) && decide (5 < t.length) then false
    else true

/-- One step of the in-process merge loop (lines 1120-1150): compare the
incoming segment against the current last accumulated segment, then append
the (possibly clamped) segment only if its duration stays positive. -/
def mergeStepIP (acc : List SubtitleSegment) (seg : SubtitleSegment) : List SubtitleSegment :=
  match acc.getLast? with
  | none => if seg.start < seg.stop then acc ++ [seg] else acc
  | some last =>
    if seg.text = last.text then acc
    else
      let cleanSeg := cleanTextIP seg.text
      let cleanLast := cleanTextIP last.text
      if 2 < cleanSeg.length ∧ listEndsWith cleanLast cleanSeg = true then acc
      else
        if seg.start < last.stop then
          if last.stop - seg.start < 1/2 then
            let clamped := { seg with start := last.stop }
            if clamped.start < clamped.stop then acc ++ [clamped] else acc
          else if seg.stop ≤ last.stop then acc
          else if seg.start < seg.stop then acc ++ [seg] else acc
        else if seg.start < seg.stop then acc ++ [seg] else acc

/-- One step of the local-server merge loop (lines 2037-2049): exact-repeat
drop, suffix-repeat drop (cleaned length `> 3`), small-overlap clamp
(threshold 1.0 s), then append if the duration stays positive — there is no
containment-drop branch on this path. -/
def mergeStepLS (allSegments : List SubtitleSegment) (seg : SubtitleSegment) :
    List SubtitleSegment :=
  match allSegments.getLast? with
  | none => if seg.start < seg.stop then allSegments ++ [seg] else allSegments
  | some last =>
    if seg.text = last.text then allSegments
    else
      let cleanSeg := cleanTextLS seg.text
      let cleanLast := cleanTextLS last.text
      if 3 < cleanSeg.length ∧ listEndsWith cleanLast cleanSeg = true then allSegments
      else
        let seg' := if seg.start < last.stop ∧ last.stop - seg.start < 1 then
            { seg with start := last.stop }
          else seg
        if seg'.start < seg'.stop then allSegments ++ [seg'] else allSegments

/-- Ordering by `start`, the comparator of every `sort((a, b) => a.start -
b.start)` call in the source. -/
def segLE (a b : SubtitleSegment) : Prop := a.start ≤ b.start

instance : DecidableRel segLE := fun a b => inferInstanceAs (Decidable (a.start ≤ b.start))

instance : IsTotal SubtitleSegment segLE := ⟨fun a b => le_total a.start b.start⟩

instance : IsTrans SubtitleSegment segLE := ⟨fun _ _ _ hab hbc => le_trans hab hbc⟩

/-- The stable ascending sort by `start` (`accumulatedSegments.sort`,
line 1153; `allSegments.sort`, line 1720): stable insertion sort. -/
def sortByStart (l : List SubtitleSegment) : List SubtitleSegment :=
  List.insertionSort segLE l

/-- `list.map((s, i) => ({ ...s, id: i }))` starting at `n`. -/
def reindexFrom : ℕ → List SubtitleSegment → List SubtitleSegment
  | _, [] => []
  | n, s :: rest => { s with id := n } :: reindexFrom (n + 1) rest

/-- Re-assign display ids `0..n-1` (lines 1154, 1721, 2050). -/
def reindex (l : List SubtitleSegment) : List SubtitleSegment :=
  reindexFrom 0 l

/-- One `partial` message folded into the accumulated transcript by the
in-process worker handler (lines 1096-1156): map the payload to segments,
filter hallucinations, merge each against the current last segment, then
re-sort by start and re-assign ids. -/
def foldPartial (accumulated : List SubtitleSegment) (data : List RawChunk) :
    List SubtitleSegment :=
  let rawSegments : List SubtitleSegment :=
    data.map fun c => (⟨0, c.t0, c.t1, String.mk (jsTrim c.text.data)⟩ : SubtitleSegment)
  let validSegments := rawSegments.filter hallucinationFilter
  let merged := validSegments.foldl mergeStepIP accumulated
  reindex (sortByStart merged)

/-- Scaling of one chunk's raw response on the cloud path (lines 1783-1790):
detect the time scale against the chunk's true duration, scale and offset by
the chunk's absolute start, trim the text, drop empty-text segments. -/
def processChunkSegments (raw : List RawSeg) (c : ChunkDefinition) : List SubtitleSegment :=
  let timeOffset : ℚ := (c.start : ℚ) / 16000
  let actualDuration : ℚ := ((c.stop - c.start : ℕ) : ℚ) / 16000
  let scale := detectTimeScale raw actualDuration
  (raw.map fun s =>
      ({ id := 0, start := s.start * scale + timeOffset,
         stop := s.stop * scale + timeOffset,
         text := String.mk (jsTrim s.text.data) } : SubtitleSegment)).filter
    fun s => decide (0 < s.text.data.length)

/-- `updateProgress` on the cloud path (lines 1710-1723): concatenate the
per-chunk results in index order, sort by start, re-assign ids.  (The source
invokes the consumer callback only when the list is non-empty; the value
published is the one modelled here.) -/
def updateProgressSnapshot (results : List (List SubtitleSegment)) : List SubtitleSegment :=
  reindex (sortByStart results.flatten)

/-- Decidable check of the claimed snapshot invariant: every adjacent pair
`(a, b)` satisfies `a.end ≤ b.start`. -/
def adjacentNoOverlap : List SubtitleSegment → Bool
  | [] => true
  | [_] => true
  | a :: b :: rest => decide (a.stop ≤ b.start) && adjacentNoOverlap (b :: rest)

/-! ## Per-chunk retry loop (`processChunk`, lines 1749-1803) -/

/-- The retry loop of `processChunk` (lines 1749-1803) against an abstract
transcriber outcome `f : attempt ↦ some segments | none` (`none` = the call
threw).  Returns `(attempts made, backoff delays in ms, final outcome)`;
a `none` outcome is returned to the caller as an empty segment list
(`chunkContribution`).  `MAX_RETRIES = 3`; on the `attempt`-th failure, if
`attempt + 1 < 3` the loop sleeps `2 ^ (attempt + 1 - 1) * 1000` ms and
retries, else it returns `[]`.  Fuel 3 covers the at most three iterations. -/
def retryLoop (f : ℕ → Option (List SubtitleSegment)) :
    ℕ → ℕ → ℕ × List ℕ × Option (List SubtitleSegment)
  | 0, _ => (0, [], none)
  | fuel + 1, attempt =>
    if attempt < 3 then
      match f attempt with
      | some v => (1, [], some v)
      | none =>
        if 3 ≤ attempt + 1 then (1, [], none)
        else
          let r := retryLoop f fuel (attempt + 1)
          (r.1 + 1, 2 ^ (attempt + 1 - 1) * 1000 :: r.2.1, r.2.2)
    else (0, [], none)

/-- `processChunk`'s overall retry behaviour, from the initial attempt. -/
def processChunkRetry (f : ℕ → Option (List SubtitleSegment)) :
    ℕ × List ℕ × Option (List SubtitleSegment) :=
  retryLoop f 3 0

/-- What the chunk contributes to the job: the successful segments, or `[]`
after retry exhaustion — never an error (lines 1794, 1798, 1803). -/
def chunkContribution (f : ℕ → Option (List SubtitleSegment)) : List SubtitleSegment :=
  ((processChunkRetry f).2.2).getD []

/-! ## Worker-loop cancellation model (`worker`, lines 1812-1828) -/

/-- Event-trace model of one cloud worker's loop.  Iteration `i` performs, in
order: the epoch check at line 1814 (event time `3·i`), the shared-iterator
pull with its `done` test (lines 1816-1817, bounded here by the chunk count),
the second epoch check at line 1819 (event time `3·i + 1`), and then the
awaited `processChunk` plus the **unconditional** `updateProgress()` publish
(lines 1824-1826, event time `3·i + 2`).  `cutoff` is the event time from
which the global epoch no longer equals this job's `jobId` (job B started).
Returns the event times of the publishes this worker performs. -/
def workerGo (cutoff : ℕ) : ℕ → ℕ → List ℕ
  | 0, _ => []
  | remaining + 1, i =>
    if cutoff ≤ 3 * i then []
    else if cutoff ≤ 3 * i + 1 then []
    else (3 * i + 2) :: workerGo cutoff remaining (i + 1)

/-- The publish event times of a worker with `numChunks` chunks available
when the epoch changes at event time `cutoff`. -/
def workerPublishTimes (numChunks cutoff : ℕ) : List ℕ :=
  workerGo cutoff numChunks 0

/-! ## Property packages used by the claims -/

/-- Exact coverage of `[0, total)`: indices are `0, 1, 2, …` in order, every
chunk is non-empty, adjacent chunks share their boundary sample exactly once,
the first chunk starts at sample 0 and the last ends at `total`. -/
def chunksExactCover (total : ℕ) (out : List ChunkDefinition) : Prop :=
  out.map (fun c => c.index) = List.range out.length
  ∧ List.Chain' (fun a b => a.stop = b.start) out
  ∧ (∀ c ∈ out, c.start < c.stop ∧ c.stop ≤ total)
  ∧ (0 < total → out.head?.map (fun c => c.start) = some 0
      ∧ out.getLast?.map (fun c => c.stop) = some total)
  ∧ (total = 0 → out = [])

/-- The weaker property the VAD segmenter actually guarantees: indices are
`0, 1, 2, …` in order, every chunk is non-empty, chunks are ordered and
pairwise disjoint (`a.stop ≤ b.start` for adjacent pairs — gaps allowed), and
on a non-empty waveform the last chunk still ends at `total`. -/
def chunksOrderedDisjoint (total : ℕ) (out : List ChunkDefinition) : Prop :=
  out.map (fun c => c.index) = List.range out.length
  ∧ List.Chain' (fun a b => a.stop ≤ b.start) out
  ∧ (∀ c ∈ out, c.start < c.stop ∧ c.stop ≤ total)
  ∧ (0 < total → out ≠ [] ∧ out.getLast?.map (fun c => c.stop) = some total)

/-- A 0.1-second waveform: one 50 ms analysis window (800 samples) of digital
silence followed by one window of speech-level samples.  With
`min_silence = 0.05 s` (800 samples) and `silence_threshold = 0.1` the VAD
scan places one split at the silence midpoint, sample 400; the candidate
chunk `[0, 400)` lasts only 0.025 s (≤ 0.2 s), so it is discarded, and the
published chunk list `[⟨0, 400, 1600⟩]` leaves `[0, 400)` uncovered. -/
def vadGapAudio : List ℚ :=
  List.replicate 800 0 ++ List.replicate 800 1

/-- The selection rule of §4.2 for `detectTimeScale` on non-degenerate input:
the result is one of the three candidates; when at least one candidate
passes the plausibility filter the result is a passing candidate whose scaled
mean duration is closest to 3.0 s (so, in particular, the unique survivor
when exactly one passes); when no candidate passes the result is the
candidate whose scaled maximum end is closest to the chunk duration. -/
def detectRule (segments : List RawSeg) (chunkDuration : ℚ) : Prop :=
  let avg := avgDurOf (parsedSegs segments)
  let mx := maxEndOf (parsedSegs segments)
  let r := detectTimeScale segments chunkDuration
  r ∈ timeScaleCandidates
  ∧ ((∃ c ∈ timeScaleCandidates, scaleValid avg mx chunkDuration c) →
      scaleValid avg mx chunkDuration r
      ∧ ∀ c ∈ timeScaleCandidates, scaleValid avg mx chunkDuration c →
          |avg * r - 3| ≤ |avg * c - 3|)
  ∧ ((∀ c ∈ timeScaleCandidates, ¬ scaleValid avg mx chunkDuration c) →
      ∀ c ∈ timeScaleCandidates, |mx * r - chunkDuration| ≤ |mx * c - chunkDuration|)

/-! ## Helper lemmas -/

theorem firstMinBy_mem (f : ℚ → ℚ) :
    ∀ (l : List ℚ) (a : ℚ), firstMinBy f a l = a ∨ firstMinBy f a l ∈ l := by
  intro l
  induction l with
  | nil => intro a; exact Or.inl rfl
  | cons y ys ih =>
    intro a
    simp only [firstMinBy]
    by_cases hc : f y < f a
    · rw [if_pos hc]
      rcases ih y with h | h
      · exact Or.inr (by simp [h])
      · exact Or.inr (by simp [h])
    · rw [if_neg hc]
      rcases ih a with h | h
      · exact Or.inl h
      · exact Or.inr (by simp [h])

theorem firstMinBy_le (f : ℚ → ℚ) :
    ∀ (l : List ℚ) (a x : ℚ), (x = a ∨ x ∈ l) → f (firstMinBy f a l) ≤ f x := by
  intro l
  induction l with
  | nil =>
    intro a x h
    rcases h with rfl | h
    · exact le_refl _
    · exact absurd h (List.not_mem_nil x)
  | cons y ys ih =>
    intro a x h
    simp only [firstMinBy]
    by_cases hc : f y < f a
    · rw [if_pos hc]
      rcases h with rfl | hx
      · exact le_trans (ih y y (Or.inl rfl)) (le_of_lt hc)
      · rcases List.mem_cons.mp hx with rfl | hmem
        · exact ih x x (Or.inl rfl)
        · exact ih y x (Or.inr hmem)
    · rw [if_neg hc]
      rcases h with rfl | hx
      · exact ih x x (Or.inl rfl)
      · rcases List.mem_cons.mp hx with rfl | hmem
        · exact le_trans (ih a a (Or.inl rfl)) (not_lt.mp hc)
        · exact ih a x (Or.inr hmem)

/-! ## Claim C10 — degenerate input falls back to scale 1.0 -/

/-- **C10**: if no raw segment parses to `end > start` (empty response,
degenerate or unparseable timestamps), `detectTimeScale` returns `1.0`
(seconds) regardless of the chunk duration. -/
theorem C10_degenerate_scale_is_one (segments : List RawSeg) (chunkDuration : ℚ)
    (h : ∀ s ∈ segments, s.stop ≤ s.start) :
    detectTimeScale segments chunkDuration = 1 := by
  have hp : parsedSegs segments = [] := by
    simp only [parsedSegs, List.filter_eq_nil_iff]
    intro s hs
    simp only [Bool.and_eq_true, decide_eq_true_eq, not_and]
    intro hlt
    exact absurd hlt (not_lt.mpr (h s hs))
  simp [detectTimeScale, hp]

/-- Witness for C10 at a concrete degenerate input. -/
theorem C10_degenerate_scale_is_one_witness :
    (∀ s ∈ [(⟨5, 5, "x"⟩ : RawSeg)], s.stop ≤ s.start)
    ∧ detectTimeScale [(⟨5, 5, "x"⟩ : RawSeg)] 7 = 1 :=
  ⟨by decide, C10_degenerate_scale_is_one _ 7 (by decide)⟩

/-! ## Claim C5 — per-chunk retry/backoff -/

/-- **C5 counterexample**: on a transcriber that fails every attempt, the
chunk makes 3 attempts in total with backoff delays `[1000, 2000]` ms — not
the claimed three retries with delays `1 s, 2 s, 4 s`: no `4000` ms delay
ever occurs, and only two sleeps happen. -/
theorem C5_retry_counterexample :
    processChunkRetry (fun _ => none) = (3, [1000, 2000], none)
    ∧ (processChunkRetry (fun _ => none)).2.1 ≠ [1000, 2000, 4000] := by
  constructor
  · simp [processChunkRetry, retryLoop]
  · simp [processChunkRetry, retryLoop]

/-- **C5 (amended)**: on persistent transient failure the pipeline makes 3
attempts in total (the initial call plus 2 retries) with exponential backoff
delays of 1 s and 2 s, and the chunk then contributes an empty segment list
rather than an error, so the job continues. -/
theorem C5_retry_exhaustion (f : ℕ → Option (List SubtitleSegment))
    (hf : ∀ n, f n = none) :
    processChunkRetry f = (3, [1000, 2000], none) ∧ chunkContribution f = [] := by
  have h0 := hf 0
  have h1 := hf 1
  have h2 := hf 2
  refine ⟨?_, ?_⟩
  · simp [processChunkRetry, retryLoop, h0, h1, h2]
  · simp [chunkContribution, processChunkRetry, retryLoop, h0, h1, h2]

/-- Witness for C5 at the concrete always-failing transcriber. -/
theorem C5_retry_exhaustion_witness :
    (∀ n, (fun _ : ℕ => (none : Option (List SubtitleSegment))) n = none)
    ∧ processChunkRetry (fun _ => none) = (3, [1000, 2000], none)
    ∧ chunkContribution (fun _ => none) = [] :=
  ⟨fun _ => rfl,
    (C5_retry_exhaustion _ fun _ => rfl).1,
    (C5_retry_exhaustion _ fun _ => rfl).2⟩

/-! ## Claim C6 — epoch-based cancellation -/

/-- **C6 counterexample**: a worker with one chunk in flight when the epoch
changes at event time 2 (i.e. after both epoch checks passed but before the
awaited chunk completed) still publishes a snapshot at event time 2, at/after
the epoch change — the claim says no snapshot at all is delivered after job B
starts. -/
theorem C6_stale_snapshot_counterexample :
    workerPublishTimes 1 2 = [2]
    ∧ (workerPublishTimes 1 2).filter (fun t => decide (2 ≤ t)) ≠ [] := by
  constructor <;> decide

/-- **C6 (amended)**: after the epoch changes, each worker publishes at most
one further snapshot — the one for the chunk already in flight — and then
exits at its next epoch check; no later chunk of the superseded job is ever
published. -/
theorem C6_at_most_one_stale_snapshot (numChunks cutoff : ℕ) :
    ((workerPublishTimes numChunks cutoff).filter fun t => decide (cutoff ≤ t)).length ≤ 1 := by
  suffices h : ∀ n i, ((workerGo cutoff n i).filter fun t => decide (cutoff ≤ t)).length ≤ 1 from
    h numChunks 0
  intro n
  induction n with
  | zero => intro i; simp [workerGo]
  | succ m ih =>
    intro i
    simp only [workerGo]
    by_cases h1 : cutoff ≤ 3 * i
    · simp [h1]
    · by_cases h2 : cutoff ≤ 3 * i + 1
      · simp [h1, h2]
      · simp only [h1, h2, if_false, List.filter_cons]
        by_cases h3 : cutoff ≤ 3 * i + 2
        · have hrest : workerGo cutoff m (i + 1) = [] := by
            cases m with
            | zero => rfl
            | succ k =>
              simp only [workerGo, if_pos (show cutoff ≤ 3 * (i + 1) by omega)]
          simp [h3, hrest]
        · simp only [decide_eq_true_eq, if_neg h3]
          exact ih (i + 1)

theorem parsedSegs_of_increasing (L : List RawSeg) (h : ∀ s ∈ L, s.start < s.stop) :
    parsedSegs L = L := by
  simp only [parsedSegs]
  rw [List.filter_eq_self]
  intro s hs
  have hlt := h s hs
  simp only [Bool.and_eq_true, decide_eq_true_eq]
  exact ⟨hlt, by linarith⟩

theorem mem_map_scaleRawBy_increasing (k : ℚ) (hk : 0 < k) (L : List RawSeg)
    (h : ∀ s ∈ L, s.start < s.stop) :
    ∀ s ∈ L.map (scaleRawBy k), s.start < s.stop := by
  intro s hs
  rcases List.mem_map.mp hs with ⟨t, ht, rfl⟩
  simpa only [scaleRawBy] using (mul_lt_mul_left hk).mpr (h t ht)

theorem avgDurOf_map_scale (k : ℚ) (L : List RawSeg) :
    avgDurOf (L.map (scaleRawBy k)) = k * avgDurOf L := by
  simp only [avgDurOf, List.map_map, List.length_map]
  have hmap : (L.map fun s => (scaleRawBy k s).stop - (scaleRawBy k s).start)
      = L.map fun s => k * (s.stop - s.start) := by
    apply List.map_congr_left
    intro s _
    simp [scaleRawBy, mul_sub]
  rw [show ((fun s => s.stop - s.start) ∘ scaleRawBy k)
      = fun s : RawSeg => (scaleRawBy k s).stop - (scaleRawBy k s).start from rfl]
  rw [hmap, List.sum_map_mul_left, mul_div_assoc]

theorem foldl_max_map_mul (k : ℚ) (hk : 0 ≤ k) :
    ∀ (xs : List ℚ) (a : ℚ), (xs.map fun x => k * x).foldl max (k * a) = k * xs.foldl max a := by
  intro xs
  induction xs with
  | nil => intro a; simp
  | cons x xs ih =>
    intro a
    simp only [List.map_cons, List.foldl_cons]
    rw [← mul_max_of_nonneg _ _ hk]
    exact ih (max a x)

theorem maxEndOf_map_scale (k : ℚ) (hk : 0 ≤ k) (L : List RawSeg) :
    maxEndOf (L.map (scaleRawBy k)) = k * maxEndOf L := by
  cases L with
  | nil => simp [maxEndOf]
  | cons s rest =>
    simp only [List.map_cons, maxEndOf, List.map_map]
    have hmap : rest.map ((fun t => t.stop) ∘ scaleRawBy k)
        = (rest.map fun t => t.stop).map fun x => k * x := by
      rw [List.map_map]
      apply List.map_congr_left
      intro t _
      simp [scaleRawBy]
    rw [hmap]
    have hs : (scaleRawBy k s).stop = k * s.stop := by simp [scaleRawBy]
    rw [hs, foldl_max_map_mul k hk]

theorem detectTimeScale_follows_rule (segments : List RawSeg) (chunkDuration : ℚ)
    (hne : parsedSegs segments ≠ []) : detectRule segments chunkDuration := by
  have hE : (parsedSegs segments).isEmpty = false := by
    simpa [List.isEmpty_iff] using hne
  unfold detectRule
  set avg := avgDurOf (parsedSegs segments) with havg
  set mx := maxEndOf (parsedSegs segments) with hmx
  simp only []
  rcases hfil : timeScaleCandidates.filter (fun scale =>
      decide (scaleValid avg mx chunkDuration scale)) with _ | ⟨c, _ | ⟨c2, cs⟩⟩
  · -- no valid candidate: fallback branch
    have hr : detectTimeScale segments chunkDuration
        = firstMinBy (fun s => |mx * s - chunkDuration|) 1 [1/100, 1/1000] := by
      simp only [detectTimeScale, hE, Bool.false_eq_true, if_false, ← havg, ← hmx]
      rw [hfil]
    have hnone : ∀ d ∈ timeScaleCandidates, ¬ scaleValid avg mx chunkDuration d := by
      intro d hdc hv
      have hmem : d ∈ (timeScaleCandidates.filter (fun scale =>
          decide (scaleValid avg mx chunkDuration scale))) :=
        List.mem_filter.mpr ⟨hdc, decide_eq_true hv⟩
      rw [hfil] at hmem
      exact absurd hmem (List.not_mem_nil d)
    refine ⟨?_, ?_, ?_⟩
    · rw [hr]
      rcases firstMinBy_mem (fun s => |mx * s - chunkDuration|) [1/100, 1/1000] 1 with h | h
      · rw [h]; simp [timeScaleCandidates]
      · simp only [timeScaleCandidates]
        exact List.mem_cons_of_mem _ h
    · intro hex
      exfalso
      rcases hex with ⟨d, hdc, hv⟩
      exact hnone d hdc hv
    · intro _ d hdc
      rw [hr]
      have hdm : d = 1 ∨ d ∈ [(1:ℚ)/100, 1/1000] := by
        simpa only [timeScaleCandidates, List.mem_cons, List.mem_singleton] using hdc
      exact firstMinBy_le (fun s => |mx * s - chunkDuration|) [1/100, 1/1000] 1 d hdm
  · -- exactly one valid candidate: the unique survivor is returned
    have hr : detectTimeScale segments chunkDuration = c := by
      simp only [detectTimeScale, hE, Bool.false_eq_true, if_false, ← havg, ← hmx]
      rw [hfil]
    have hcmem : c ∈ timeScaleCandidates ∧ scaleValid avg mx chunkDuration c := by
      have hmem : c ∈ (timeScaleCandidates.filter (fun scale =>
          decide (scaleValid avg mx chunkDuration scale))) := by
        rw [hfil]; exact List.mem_cons_self c []
      have h2 := List.mem_filter.mp hmem
      exact ⟨h2.1, of_decide_eq_true h2.2⟩
    refine ⟨?_, ?_, ?_⟩
    · rw [hr]; exact hcmem.1
    · intro _
      constructor
      · rw [hr]; exact hcmem.2
      · intro d hdc hv
        have hmem : d ∈ (timeScaleCandidates.filter (fun scale =>
            decide (scaleValid avg mx chunkDuration scale))) :=
          List.mem_filter.mpr ⟨hdc, decide_eq_true hv⟩
        rw [hfil] at hmem
        have hd2 : d = c := by simpa using hmem
        rw [hr, hd2]
    · intro hnone
      exact absurd hcmem.2 (hnone c hcmem.1)
  · -- two or more valid candidates: closest scaled mean to 3.0 s wins
    have hr : detectTimeScale segments chunkDuration
        = firstMinBy (fun s => |avg * s - 3|) c (c2 :: cs) := by
      simp only [detectTimeScale, hE, Bool.false_eq_true, if_false, ← havg, ← hmx]
      rw [hfil]
    have hsub : ∀ d, d = c ∨ d ∈ c2 :: cs →
        d ∈ timeScaleCandidates ∧ scaleValid avg mx chunkDuration d := by
      intro d hdm
      have hmem : d ∈ (timeScaleCandidates.filter (fun scale =>
          decide (scaleValid avg mx chunkDuration scale))) := by
        rw [hfil]
        rcases hdm with rfl | h
        · exact List.mem_cons_self _ _
        · exact List.mem_cons_of_mem _ h
      have h2 := List.mem_filter.mp hmem
      exact ⟨h2.1, of_decide_eq_true h2.2⟩
    have hrmem := firstMinBy_mem (fun s => |avg * s - 3|) (c2 :: cs) c
    refine ⟨?_, ?_, ?_⟩
    · rw [hr]
      exact (hsub _ hrmem).1
    · intro _
      constructor
      · rw [hr]
        exact (hsub _ hrmem).2
      · intro d hdc hv
        have hmem : d ∈ (timeScaleCandidates.filter (fun scale =>
            decide (scaleValid avg mx chunkDuration scale))) :=
          List.mem_filter.mpr ⟨hdc, decide_eq_true hv⟩
        rw [hfil] at hmem
        rw [hr]
        exact firstMinBy_le (fun s => |avg * s - 3|) (c2 :: cs) c d (List.mem_cons.mp hmem)
    · intro hnone
      exact absurd (hsub c (Or.inl rfl)).2 (hnone c (hsub c (Or.inl rfl)).1)
theorem detectTimeScale_roundTrip (L : List RawSeg) (chunkDuration : ℚ)
    (hne : L ≠ []) (hinc : ∀ s ∈ L, s.start < s.stop)
    (h1 : 1/5 ≤ avgDurOf L) (h2 : avgDurOf L ≤ 60/11)
    (h3 : chunkDuration * (3/20) < maxEndOf L) (h4 : maxEndOf L ≤ chunkDuration * (3/2)) :
    detectTimeScale L chunkDuration = 1
    ∧ detectTimeScale (L.map (scaleRawBy 100)) chunkDuration = 1/100
    ∧ detectTimeScale (L.map (scaleRawBy 1000)) chunkDuration = 1/1000 := by
  have hdur : 0 < chunkDuration := by nlinarith
  have hmx0 : 0 < maxEndOf L := by nlinarith
  have hp : parsedSegs L = L := parsedSegs_of_increasing L hinc
  have hE : (parsedSegs L).isEmpty = false := by
    rw [hp]; simpa [List.isEmpty_iff] using hne
  refine ⟨?_, ?_, ?_⟩
  · -- authored in seconds: only scale 1 survives
    have hv1 : scaleValid (avgDurOf (parsedSegs L)) (maxEndOf (parsedSegs L))
        chunkDuration 1 := by
      rw [hp]; unfold scaleValid
      refine ⟨by linarith, by linarith, by linarith⟩
    have hv2 : ¬ scaleValid (avgDurOf (parsedSegs L)) (maxEndOf (parsedSegs L))
        chunkDuration (1/100) := by
      rw [hp]; unfold scaleValid
      rintro ⟨ha, -, -⟩
      linarith
    have hv3 : ¬ scaleValid (avgDurOf (parsedSegs L)) (maxEndOf (parsedSegs L))
        chunkDuration (1/1000) := by
      rw [hp]; unfold scaleValid
      rintro ⟨ha, -, -⟩
      linarith
    have hfil : timeScaleCandidates.filter (fun scale =>
        decide (scaleValid (avgDurOf (parsedSegs L)) (maxEndOf (parsedSegs L))
          chunkDuration scale)) = [1] := by
      simp only [timeScaleCandidates, List.filter_cons, List.filter_nil, decide_eq_true_eq]
      rw [if_pos hv1, if_neg hv2, if_neg hv3]
    simp only [detectTimeScale, hE, Bool.false_eq_true, if_false]
    rw [hfil]
  · -- authored in centiseconds
    have hp100 : parsedSegs (L.map (scaleRawBy 100)) = L.map (scaleRawBy 100) :=
      parsedSegs_of_increasing _ (mem_map_scaleRawBy_increasing 100 (by norm_num) L hinc)
    have hmapne : L.map (scaleRawBy 100) ≠ [] := by
      simpa [List.map_eq_nil_iff] using hne
    have hE100 : (parsedSegs (L.map (scaleRawBy 100))).isEmpty = false := by
      rw [hp100]; simpa [List.isEmpty_iff] using hmapne
    have ha100 : avgDurOf (L.map (scaleRawBy 100)) = 100 * avgDurOf L :=
      avgDurOf_map_scale 100 L
    have hm100 : maxEndOf (L.map (scaleRawBy 100)) = 100 * maxEndOf L :=
      maxEndOf_map_scale 100 (by norm_num) L
    have hv1 : ¬ scaleValid (avgDurOf (parsedSegs (L.map (scaleRawBy 100))))
        (maxEndOf (parsedSegs (L.map (scaleRawBy 100)))) chunkDuration 1 := by
      rw [hp100, ha100, hm100]; unfold scaleValid
      rintro ⟨-, -, hc⟩
      nlinarith
    have hv2 : scaleValid (avgDurOf (parsedSegs (L.map (scaleRawBy 100))))
        (maxEndOf (parsedSegs (L.map (scaleRawBy 100)))) chunkDuration (1/100) := by
      rw [hp100, ha100, hm100]; unfold scaleValid
      refine ⟨by linarith, by linarith, by linarith⟩
    by_cases havg2 : 2 ≤ avgDurOf L
    · -- 0.001 also survives but loses (or ties) the 3.0 s tie-break
      have hv3 : scaleValid (avgDurOf (parsedSegs (L.map (scaleRawBy 100))))
          (maxEndOf (parsedSegs (L.map (scaleRawBy 100)))) chunkDuration (1/1000) := by
        rw [hp100, ha100, hm100]; unfold scaleValid
        refine ⟨by linarith, by linarith, by nlinarith⟩
      have hfil : timeScaleCandidates.filter (fun scale =>
          decide (scaleValid (avgDurOf (parsedSegs (L.map (scaleRawBy 100))))
            (maxEndOf (parsedSegs (L.map (scaleRawBy 100)))) chunkDuration scale))
          = [1/100, 1/1000] := by
        simp only [timeScaleCandidates, List.filter_cons, List.filter_nil, decide_eq_true_eq]
        rw [if_neg hv1, if_pos hv2, if_pos hv3]
      simp only [detectTimeScale, hE100, Bool.false_eq_true, if_false]
      rw [hfil]
      simp only [firstMinBy]
      rw [if_neg]
      rw [not_lt, hp100, ha100]
      have e1 : 100 * avgDurOf L * (1/100) - 3 = avgDurOf L - 3 := by ring
      have e2 : 100 * avgDurOf L * (1/1000) - 3 = avgDurOf L / 10 - 3 := by ring
      rw [e1, e2]
      have hnn : |avgDurOf L / 10 - 3| = 3 - avgDurOf L / 10 := by
        rw [abs_of_nonpos (by linarith)]
        ring
      rw [hnn, abs_le]
      constructor <;> linarith
    · -- 0.001 fails the plausible-duration filter
      have hv3 : ¬ scaleValid (avgDurOf (parsedSegs (L.map (scaleRawBy 100))))
          (maxEndOf (parsedSegs (L.map (scaleRawBy 100)))) chunkDuration (1/1000) := by
        rw [hp100, ha100, hm100]; unfold scaleValid
        rintro ⟨ha, -, -⟩
        push_neg at havg2
        linarith
      have hfil : timeScaleCandidates.filter (fun scale =>
          decide (scaleValid (avgDurOf (parsedSegs (L.map (scaleRawBy 100))))
            (maxEndOf (parsedSegs (L.map (scaleRawBy 100)))) chunkDuration scale))
          = [1/100] := by
        simp only [timeScaleCandidates, List.filter_cons, List.filter_nil, decide_eq_true_eq]
        rw [if_neg hv1, if_pos hv2, if_neg hv3]
      simp only [detectTimeScale, hE100, Bool.false_eq_true, if_false]
      rw [hfil]
  · -- authored in milliseconds: only scale 0.001 survives
    have hp1000 : parsedSegs (L.map (scaleRawBy 1000)) = L.map (scaleRawBy 1000) :=
      parsedSegs_of_increasing _ (mem_map_scaleRawBy_increasing 1000 (by norm_num) L hinc)
    have hmapne : L.map (scaleRawBy 1000) ≠ [] := by
      simpa [List.map_eq_nil_iff] using hne
    have hE1000 : (parsedSegs (L.map (scaleRawBy 1000))).isEmpty = false := by
      rw [hp1000]; simpa [List.isEmpty_iff] using hmapne
    have ha1000 : avgDurOf (L.map (scaleRawBy 1000)) = 1000 * avgDurOf L :=
      avgDurOf_map_scale 1000 L
    have hm1000 : maxEndOf (L.map (scaleRawBy 1000)) = 1000 * maxEndOf L :=
      maxEndOf_map_scale 1000 (by norm_num) L
    have hv1 : ¬ scaleValid (avgDurOf (parsedSegs (L.map (scaleRawBy 1000))))
        (maxEndOf (parsedSegs (L.map (scaleRawBy 1000)))) chunkDuration 1 := by
      rw [hp1000, ha1000, hm1000]; unfold scaleValid
      rintro ⟨-, hb, -⟩
      linarith
    have hv2 : ¬ scaleValid (avgDurOf (parsedSegs (L.map (scaleRawBy 1000))))
        (maxEndOf (parsedSegs (L.map (scaleRawBy 1000)))) chunkDuration (1/100) := by
      rw [hp1000, ha1000, hm1000]; unfold scaleValid
      rintro ⟨-, -, hc⟩
      nlinarith
    have hv3 : scaleValid (avgDurOf (parsedSegs (L.map (scaleRawBy 1000))))
        (maxEndOf (parsedSegs (L.map (scaleRawBy 1000)))) chunkDuration (1/1000) := by
      rw [hp1000, ha1000, hm1000]; unfold scaleValid
      refine ⟨by linarith, by linarith, by linarith⟩
    have hfil : timeScaleCandidates.filter (fun scale =>
        decide (scaleValid (avgDurOf (parsedSegs (L.map (scaleRawBy 1000))))
          (maxEndOf (parsedSegs (L.map (scaleRawBy 1000)))) chunkDuration scale))
        = [1/1000] := by
      simp only [timeScaleCandidates, List.filter_cons, List.filter_nil, decide_eq_true_eq]
      rw [if_neg hv1, if_neg hv2, if_pos hv3]
    simp only [detectTimeScale, hE1000, Bool.false_eq_true, if_false]
    rw [hfil]

/-! ## Claim C3 — timestamp scale detection -/

/-- **C3 counterexample**: a single utterance of 25 s — inside the spec's own
"physically plausible" range `[0.2 s, 30 s]` — authored in centiseconds
(raw `[0, 2500]`) for a 30 s chunk.  The claim says the detector recovers
`0.01`; it returns `0.001`, because both `0.01` and `0.001` survive the
plausibility filter and `0.001`'s scaled mean (2.5 s) is closer to 3.0 s
than `0.01`'s (25 s). -/
theorem C3_centiseconds_counterexample :
    detectTimeScale [⟨0, 2500, "t"⟩] 30 = 1/1000 ∧ (1:ℚ)/1000 ≠ 1/100 := by
  constructor
  · simp only [detectTimeScale, parsedSegs, timeScaleCandidates, List.filter]
    norm_num [avgDurOf, maxEndOf, scaleValid, firstMinBy, List.isEmpty, abs]
  · norm_num

/-- **C3 (amended)**: (1) on any input with at least one parsed segment of
positive duration and a positive chunk duration, `detectTimeScale` follows
the claimed selection rule (`detectRule`): it returns one of `1.0`, `0.01`,
`0.001`; if any candidate passes the plausibility filter it returns a passing
candidate whose scaled mean duration is closest to 3.0 s (hence the unique
survivor when exactly one passes); if none passes it returns the candidate
whose scaled maximum end is closest to the chunk duration.  (2) The
seconds / centiseconds / milliseconds round trip holds for segments whose
true mean duration lies in `[0.2 s, 60/11 s]` and whose true maximum end
exceeds `0.15×` the chunk duration (while fitting in `1.5×` it) — not for
all "plausible" durations, see the counterexample. -/
theorem C3_detectTimeScale_rule_and_roundTrip :
    (∀ (segments : List RawSeg) (chunkDuration : ℚ),
        parsedSegs segments ≠ [] → 0 < chunkDuration → detectRule segments chunkDuration)
    ∧ (∀ (L : List RawSeg) (chunkDuration : ℚ),
        L ≠ [] → (∀ s ∈ L, s.start < s.stop) →
        1/5 ≤ avgDurOf L → avgDurOf L ≤ 60/11 →
        chunkDuration * (3/20) < maxEndOf L → maxEndOf L ≤ chunkDuration * (3/2) →
        detectTimeScale L chunkDuration = 1
        ∧ detectTimeScale (L.map (scaleRawBy 100)) chunkDuration = 1/100
        ∧ detectTimeScale (L.map (scaleRawBy 1000)) chunkDuration = 1/1000) :=
  ⟨fun segments chunkDuration hne _ => detectTimeScale_follows_rule segments chunkDuration hne,
   detectTimeScale_roundTrip⟩

/-- Witness for C3 at a concrete input: one 3-second utterance in a 4-second
chunk. -/
theorem C3_detectTimeScale_witness :
    (parsedSegs [(⟨0, 3, "hi"⟩ : RawSeg)] ≠ [] ∧ (0:ℚ) < 4
      ∧ detectRule [(⟨0, 3, "hi"⟩ : RawSeg)] 4)
    ∧ ([(⟨0, 3, "hi"⟩ : RawSeg)] ≠ [] ∧ (∀ s ∈ [(⟨0, 3, "hi"⟩ : RawSeg)], s.start < s.stop)
      ∧ 1/5 ≤ avgDurOf [(⟨0, 3, "hi"⟩ : RawSeg)] ∧ avgDurOf [(⟨0, 3, "hi"⟩ : RawSeg)] ≤ 60/11
      ∧ (4:ℚ) * (3/20) < maxEndOf [(⟨0, 3, "hi"⟩ : RawSeg)]
      ∧ maxEndOf [(⟨0, 3, "hi"⟩ : RawSeg)] ≤ 4 * (3/2)
      ∧ detectTimeScale [(⟨0, 3, "hi"⟩ : RawSeg)] 4 = 1
      ∧ detectTimeScale ([(⟨0, 3, "hi"⟩ : RawSeg)].map (scaleRawBy 100)) 4 = 1/100
      ∧ detectTimeScale ([(⟨0, 3, "hi"⟩ : RawSeg)].map (scaleRawBy 1000)) 4 = 1/1000) := by
  have hne : parsedSegs [(⟨0, 3, "hi"⟩ : RawSeg)] ≠ [] := by
    rw [parsedSegs_of_increasing _ (by norm_num)]
    simp
  have hinc : ∀ s ∈ [(⟨0, 3, "hi"⟩ : RawSeg)], s.start < s.stop := by norm_num
  have ha : avgDurOf [(⟨0, 3, "hi"⟩ : RawSeg)] = 3 := by norm_num [avgDurOf]
  have hm : maxEndOf [(⟨0, 3, "hi"⟩ : RawSeg)] = 3 := by norm_num [maxEndOf]
  have hrt := C3_detectTimeScale_rule_and_roundTrip.2 [(⟨0, 3, "hi"⟩ : RawSeg)] 4
    (by simp) hinc (by rw [ha]; norm_num) (by rw [ha]; norm_num)
    (by rw [hm]; norm_num) (by rw [hm]; norm_num)
  exact ⟨⟨hne, by norm_num,
      C3_detectTimeScale_rule_and_roundTrip.1 [(⟨0, 3, "hi"⟩ : RawSeg)] 4 hne (by norm_num)⟩,
    by simp, hinc, by rw [ha]; norm_num, by rw [ha]; norm_num,
    by rw [hm]; norm_num, by rw [hm]; norm_num, hrt.1, hrt.2.1, hrt.2.2⟩
theorem fixedLoopF_stop (total sampleRate : ℕ) (limitSec : Option ℚ) :
    ∀ (fuel cur schedIdx gIdx : ℕ), total ≤ cur →
      fixedLoopF total sampleRate limitSec fuel cur schedIdx gIdx = [] := by
  intro fuel cur schedIdx gIdx h
  cases fuel with
  | zero => rfl
  | succ m => simp [fixedLoopF, not_lt.mpr h]

theorem fixedLoopF_cover (total sampleRate : ℕ) (hsr : 0 < sampleRate) :
    ∀ (fuel cur schedIdx gIdx : ℕ), cur < total → total - cur < fuel →
      (fixedLoopF total sampleRate none fuel cur schedIdx gIdx ≠ []
      ∧ (fixedLoopF total sampleRate none fuel cur schedIdx gIdx).map (fun c => c.index)
          = List.range' gIdx (fixedLoopF total sampleRate none fuel cur schedIdx gIdx).length
      ∧ List.Chain' (fun a b => a.stop = b.start)
          (fixedLoopF total sampleRate none fuel cur schedIdx gIdx)
      ∧ (∀ c ∈ fixedLoopF total sampleRate none fuel cur schedIdx gIdx,
          c.start < c.stop ∧ c.stop ≤ total)
      ∧ (fixedLoopF total sampleRate none fuel cur schedIdx gIdx).head?.map (fun c => c.start)
          = some cur
      ∧ (fixedLoopF total sampleRate none fuel cur schedIdx gIdx).getLast?.map (fun c => c.stop)
          = some total) := by
  intro fuel
  induction fuel with
  | zero => intro cur schedIdx gIdx hcur hfuel; omega
  | succ m ih =>
    intro cur schedIdx gIdx hcur hfuel
    have hlim : fixedLimitStop none cur sampleRate = false := rfl
    simp only [fixedLoopF, if_pos hcur, hlim, Bool.false_eq_true, if_false]
    set raw := (if schedIdx < 3 then
        let e := chunkScheduleEnds schedIdx * sampleRate
        if e ≤ cur then cur + 180 * sampleRate else e
      else cur + 180 * sampleRate) with hraw
    have hrawgt : cur < raw := by
      rw [hraw]
      dsimp only
      split_ifs <;> omega
    have hce : cur < min raw total := lt_min hrawgt hcur
    rw [if_neg (not_le.mpr hce)]
    rcases eq_or_lt_of_le (min_le_right raw total) with heq | hlt
    · -- final chunk: ends exactly at total
      have hrec : fixedLoopF total sampleRate none m (min raw total) (schedIdx + 1) (gIdx + 1)
          = [] := fixedLoopF_stop _ _ _ _ _ _ _ (le_of_eq heq.symm)
      rw [hrec]
      refine ⟨by simp, by simp [List.range'_succ], by simp, ?_, by simp, by simp [heq]⟩
      intro c hc
      simp only [List.mem_singleton] at hc
      subst hc
      exact ⟨hce, min_le_right _ _⟩
    · -- the loop continues past this chunk
      have hrec := ih (min raw total) (schedIdx + 1) (gIdx + 1) hlt (by omega)
      obtain ⟨hne, hidx, hchain, hmem, hhead, hlast⟩ := hrec
      refine ⟨by simp, ?_, ?_, ?_, by simp, ?_⟩
      · simp only [List.map_cons, List.length_cons, List.range'_succ, hidx]
      · rw [List.chain'_cons']
        refine ⟨?_, hchain⟩
        intro y hy
        rcases hx : (fixedLoopF total sampleRate none m (min raw total) (schedIdx + 1)
            (gIdx + 1)).head? with _ | ⟨d⟩
        · rw [hx] at hy; cases hy
        · rw [hx] at hy hhead
          simp only [Option.map_some', Option.some.injEq] at hhead
          simp only [Option.mem_def, Option.some.injEq] at hy
          subst hy
          simp [hhead]
      · intro c hc
        rcases List.mem_cons.mp hc with rfl | hc'
        · exact ⟨hce, min_le_right _ _⟩
        · exact hmem c hc'
      · rcases hL : fixedLoopF total sampleRate none m (min raw total) (schedIdx + 1)
            (gIdx + 1) with _ | ⟨d, ds⟩
        · exact absurd hL hne
        · rw [hL] at hlast
          rw [List.getLast?_cons_cons]
          exact hlast

theorem schedEnd16k_lt_succ : ∀ g, schedEnd16k g < schedEnd16k (g + 1) := by
  intro g
  match g with
  | 0 => norm_num [schedEnd16k]
  | 1 => norm_num [schedEnd16k]
  | n + 2 =>
    show 180 * 16000 * (n + 1) < 180 * 16000 * (n + 1 + 1)
    omega

theorem fixedLoopF_schedule (total : ℕ) :
    ∀ (fuel cur g : ℕ),
      cur = (if g = 0 then 0 else schedEnd16k (g - 1)) →
      cur < schedEnd16k g →
      ∀ c ∈ fixedLoopF total 16000 none fuel cur g g,
        c.start = (if c.index = 0 then 0 else schedEnd16k (c.index - 1))
        ∧ c.stop = min (schedEnd16k c.index) total := by
  intro fuel
  induction fuel with
  | zero => intro cur g _ _ c hc; cases hc
  | succ m ih =>
    intro cur g hcur hlt c hc
    by_cases hct : cur < total
    · have hlim : fixedLimitStop none cur 16000 = false := rfl
      simp only [fixedLoopF, if_pos hct, hlim, Bool.false_eq_true, if_false] at hc
      have hraw : (if g < 3 then
          if chunkScheduleEnds g * 16000 ≤ cur then cur + 180 * 16000
          else chunkScheduleEnds g * 16000
        else cur + 180 * 16000) = schedEnd16k g := by
        subst hcur
        rcases g with _ | _ | _ | n
        · norm_num [chunkScheduleEnds, schedEnd16k]
        · norm_num [chunkScheduleEnds, schedEnd16k]
        · norm_num [chunkScheduleEnds, schedEnd16k]
        · have h3 : ¬ (n + 3 < 3) := by omega
          rw [if_neg h3]
          show schedEnd16k (n + 2) + 180 * 16000 = schedEnd16k (n + 3)
          show 180 * 16000 * (n + 1) + 180 * 16000 = 180 * 16000 * (n + 1 + 1)
          ring
      rw [hraw] at hc
      by_cases hend : min (schedEnd16k g) total ≤ cur
      · rw [if_pos hend] at hc
        cases hc
      · rw [if_neg hend] at hc
        rcases List.mem_cons.mp hc with rfl | hc'
        · exact ⟨hcur, rfl⟩
        · rcases le_or_lt (schedEnd16k g) total with hle | hgt
          · have hmin : min (schedEnd16k g) total = schedEnd16k g := min_eq_left hle
            rw [hmin] at hc'
            exact ih (schedEnd16k g) (g + 1) (by simp) (schedEnd16k_lt_succ g) c hc'
          · have hmin : min (schedEnd16k g) total = total := min_eq_right (le_of_lt hgt)
            rw [hmin] at hc'
            rw [fixedLoopF_stop total 16000 none m total (g + 1) (g + 1) (le_refl _)] at hc'
            cases hc'
    · rw [fixedLoopF_stop total 16000 none (m + 1) cur g g (not_lt.mp hct)] at hc
      cases hc

theorem getFixedChunks_cover (audioData : List ℚ) :
    chunksExactCover audioData.length (getFixedChunks audioData 16000 none) := by
  unfold chunksExactCover getFixedChunks
  rcases Nat.eq_zero_or_pos audioData.length with h0 | hpos
  · rw [h0]
    rw [fixedLoopF_stop 0 16000 none 1 0 0 0 (le_refl 0)]
    simp
  · have h := fixedLoopF_cover audioData.length 16000 (by norm_num)
      (audioData.length + 1) 0 0 0 hpos (by omega)
    obtain ⟨hne, hidx, hchain, hmem, hhead, hlast⟩ := h
    refine ⟨?_, hchain, hmem, fun _ => ⟨hhead, hlast⟩, fun hz => absurd hpos (by omega)⟩
    rw [hidx, List.range_eq_range']

/-! ## Claim C9 — fixed-schedule boundaries -/

/-- **C9**: at 16 kHz, every chunk of the fixed-schedule segmenter follows
the absolute-time schedule `[0,20)`, `[20,60)`, `[60,180)` s and then fixed
180-second windows, with the final chunk clamped to end at `total_samples`:
chunk `i` runs from the previous scheduled boundary to
`min (schedEnd16k i) total`. -/
theorem C9_fixed_schedule (audioData : List ℚ) (c : ChunkDefinition)
    (hc : c ∈ getFixedChunks audioData 16000 none) :
    c.start = (if c.index = 0 then 0 else schedEnd16k (c.index - 1))
    ∧ c.stop = min (schedEnd16k c.index) audioData.length :=
  fixedLoopF_schedule audioData.length (audioData.length + 1) 0 0 (by simp)
    (by norm_num [schedEnd16k]) c hc

/-- Witness for C9 on a 25-second waveform: its second chunk is
`[320000, 400000)`, i.e. `[20 s, 25 s)` — the `[20, 60)` window clamped at
the end of the file. -/
theorem C9_fixed_schedule_witness :
    ((⟨1, 320000, 400000⟩ : ChunkDefinition)
        ∈ getFixedChunks (List.replicate 400000 (0:ℚ)) 16000 none)
    ∧ ((⟨1, 320000, 400000⟩ : ChunkDefinition).start
        = (if (⟨1, 320000, 400000⟩ : ChunkDefinition).index = 0 then 0
           else schedEnd16k ((⟨1, 320000, 400000⟩ : ChunkDefinition).index - 1))
      ∧ (⟨1, 320000, 400000⟩ : ChunkDefinition).stop
        = min (schedEnd16k (⟨1, 320000, 400000⟩ : ChunkDefinition).index)
            (List.replicate 400000 (0:ℚ)).length) := by
  have hmem : (⟨1, 320000, 400000⟩ : ChunkDefinition)
      ∈ getFixedChunks (List.replicate 400000 (0:ℚ)) 16000 none := by
    have hev : getFixedChunks (List.replicate 400000 (0:ℚ)) 16000 none
        = [⟨0, 0, 320000⟩, ⟨1, 320000, 400000⟩] := by
      simp only [getFixedChunks, List.length_replicate]
      decide
    rw [hev]
    simp
  exact ⟨hmem, C9_fixed_schedule _ _ hmem⟩
theorem reindexFrom_length : ∀ (n : ℕ) (l : List SubtitleSegment),
    (reindexFrom n l).length = l.length := by
  intro n l
  induction l generalizing n with
  | nil => rfl
  | cons s rest ih => simp [reindexFrom, ih]

theorem reindexFrom_map_start : ∀ (n : ℕ) (l : List SubtitleSegment),
    (reindexFrom n l).map (fun s => s.start) = l.map (fun s => s.start) := by
  intro n l
  induction l generalizing n with
  | nil => rfl
  | cons s rest ih => simp [reindexFrom, ih]

theorem reindexFrom_ids : ∀ (n : ℕ) (l : List SubtitleSegment),
    (reindexFrom n l).map (fun s => s.id) = List.range' n l.length := by
  intro n l
  induction l generalizing n with
  | nil => rfl
  | cons s rest ih =>
    simp only [reindexFrom, List.map_cons, List.length_cons, List.range'_succ, ih]

theorem reindexFrom_eq_self : ∀ (n : ℕ) (l : List SubtitleSegment),
    (∀ (i : ℕ) (h : i < l.length), (l.get ⟨i, h⟩).id = n + i) →
    reindexFrom n l = l := by
  intro n l
  induction l generalizing n with
  | nil => intro _; rfl
  | cons s rest ih =>
    intro h
    have h0 : s.id = n := by
      have := h 0 (by simp)
      simpa using this
    have htail : reindexFrom (n + 1) rest = rest := by
      apply ih
      intro i hi
      have := h (i + 1) (by simpa using Nat.succ_lt_succ hi)
      simpa [Nat.add_comm, Nat.add_assoc, Nat.add_left_comm] using this
    simp only [reindexFrom, htail]
    cases s with
    | mk sid sstart sstop stext =>
      simp only at h0
      simp [h0]

theorem sortByStart_pairwise (l : List SubtitleSegment) :
    (sortByStart l).Pairwise segLE :=
  List.sorted_insertionSort segLE l

/-! ## Claim C1 — published snapshots: ordering holds, non-overlap does not -/

/-- **C1 (amended)**: every snapshot the cloud path's `updateProgress`
publishes is sorted by `start` (no two adjacent segments are misordered) and
re-indexed `0..n-1`.  The claimed non-overlap `a.end ≤ b.start` does *not*
hold: `updateProgress` performs no merge at all (see the counterexample),
and the merging paths can also append a large-overlap segment. -/
theorem C1_snapshot_sorted_and_indexed (results : List (List SubtitleSegment)) :
    (updateProgressSnapshot results).Pairwise (fun a b => a.start ≤ b.start)
    ∧ (updateProgressSnapshot results).map (fun s => s.id)
        = List.range (updateProgressSnapshot results).length := by
  unfold updateProgressSnapshot reindex
  constructor
  · have h1 : (sortByStart results.flatten).Pairwise segLE := sortByStart_pairwise _
    have h2 := reindexFrom_map_start 0 (sortByStart results.flatten)
    have h3 : ((sortByStart results.flatten).map (fun s => s.start)).Pairwise (· ≤ ·) :=
      List.pairwise_map.mpr h1
    rw [← h2] at h3
    exact List.pairwise_map.mp h3
  · rw [reindexFrom_ids, reindexFrom_length, List.range_eq_range']

/-- **C1 counterexample**: two chunks of the cloud path — chunk 0 is
`[0 s, 20 s)` whose backend response contains a segment reaching 25 s (the
scale detector accepts ends up to `1.5×` the chunk duration), chunk 1 is
`[20 s, 40 s)` with ordinary segments.  The published snapshot contains the
adjacent pair `(⟨6, 25, "c"⟩, ⟨20, 23, "d"⟩)` with `a.end = 25 > 20 =
b.start`: overlapping segments are published to the consumer callback. -/
theorem C1_overlap_counterexample :
    adjacentNoOverlap (updateProgressSnapshot
      [processChunkSegments [⟨0, 3, "a"⟩, ⟨3, 6, "b"⟩, ⟨6, 25, "c"⟩] ⟨0, 0, 320000⟩,
       processChunkSegments [⟨0, 3, "d"⟩, ⟨3, 8, "e"⟩] ⟨1, 320000, 640000⟩]) = false := by
  have hs1 : processChunkSegments [⟨0, 3, "a"⟩, ⟨3, 6, "b"⟩, ⟨6, 25, "c"⟩] ⟨0, 0, 320000⟩
      = [⟨0, 0, 3, "a"⟩, ⟨0, 3, 6, "b"⟩, ⟨0, 6, 25, "c"⟩] := by
    have hscale : detectTimeScale [⟨0, 3, "a"⟩, ⟨3, 6, "b"⟩, ⟨6, 25, "c"⟩] 20 = 1 := by
      simp only [detectTimeScale, parsedSegs, timeScaleCandidates, List.filter]
      norm_num [avgDurOf, maxEndOf, scaleValid, firstMinBy, List.isEmpty, abs]
    simp only [processChunkSegments]
    norm_num
    rw [hscale]
    norm_num [(show String.mk (jsTrim ("a" : String).data) = "a" from rfl),
      (show String.mk (jsTrim ("b" : String).data) = "b" from rfl),
      (show String.mk (jsTrim ("c" : String).data) = "c" from rfl),
      List.filter]
    rfl
  have hs2 : processChunkSegments [⟨0, 3, "d"⟩, ⟨3, 8, "e"⟩] ⟨1, 320000, 640000⟩
      = [⟨0, 20, 23, "d"⟩, ⟨0, 23, 28, "e"⟩] := by
    have hscale : detectTimeScale [⟨0, 3, "d"⟩, ⟨3, 8, "e"⟩] 20 = 1 := by
      simp only [detectTimeScale, parsedSegs, timeScaleCandidates, List.filter]
      norm_num [avgDurOf, maxEndOf, scaleValid, firstMinBy, List.isEmpty, abs]
    simp only [processChunkSegments]
    norm_num
    rw [hscale]
    norm_num [(show String.mk (jsTrim ("d" : String).data) = "d" from rfl),
      (show String.mk (jsTrim ("e" : String).data) = "e" from rfl),
      List.filter]
    rfl
  rw [hs1, hs2]
  norm_num [updateProgressSnapshot, sortByStart, List.insertionSort, List.orderedInsert,
    reindex, reindexFrom, segLE, adjacentNoOverlap]

/-! ## Claim C7 — merge idempotence -/

/-- **C7 counterexample**: folding the same non-empty increment twice is
*not* idempotent.  Transcript `[⟨5, 6, "t"⟩]`, increment `[⟨"x", 0, 20⟩]`:
the first fold appends the segment and re-sorts, so the transcript's last
element is now `⟨5, 6, "t"⟩` again; re-folding the same increment compares
the incoming `⟨0, 20, "x"⟩` against that last element, finds `seg.end = 20 >
6 = last.end` (not contained), and appends a duplicate. -/
theorem C7_refold_counterexample :
    foldPartial (foldPartial [⟨0, 5, 6, "t"⟩] [⟨"x", 0, 20⟩]) [⟨"x", 0, 20⟩]
      ≠ foldPartial [⟨0, 5, 6, "t"⟩] [⟨"x", 0, 20⟩] := by
  have etrim : String.mk (jsTrim ("x" : String).data) = "x" := rfl
  have hflt : hallucinationFilter (⟨0, 0, 20, "x"⟩ : SubtitleSegment) = true := by
    simp only [hallucinationFilter, Bool.and_eq_true, decide_eq_true_eq]
    rw [if_neg (by decide), if_neg (by decide), if_neg (by norm_num)]
  have h1 : foldPartial [⟨0, 5, 6, "t"⟩] [⟨"x", 0, 20⟩]
      = [⟨0, 0, 20, "x"⟩, ⟨1, 5, 6, "t"⟩] := by
    have hmerge : mergeStepIP [⟨0, 5, 6, "t"⟩] (⟨0, 0, 20, "x"⟩ : SubtitleSegment)
        = [⟨0, 5, 6, "t"⟩, ⟨0, 0, 20, "x"⟩] := by
      simp only [mergeStepIP, List.getLast?_singleton]
      rw [if_neg (by decide), if_neg (by decide), if_pos (by norm_num), if_neg (by norm_num),
        if_neg (by norm_num), if_pos (by norm_num)]
      rfl
    simp only [foldPartial, List.map, etrim, List.filter, hflt, List.foldl, hmerge]
    simp only [sortByStart, List.insertionSort, List.orderedInsert, reindex, reindexFrom]
  have h2 : foldPartial [⟨0, 0, 20, "x"⟩, ⟨1, 5, 6, "t"⟩] [⟨"x", 0, 20⟩]
      = [⟨0, 0, 20, "x"⟩, ⟨1, 0, 20, "x"⟩, ⟨2, 5, 6, "t"⟩] := by
    have hmerge : mergeStepIP [⟨0, 0, 20, "x"⟩, ⟨1, 5, 6, "t"⟩]
        (⟨0, 0, 20, "x"⟩ : SubtitleSegment)
        = [⟨0, 0, 20, "x"⟩, ⟨1, 5, 6, "t"⟩, ⟨0, 0, 20, "x"⟩] := by
      simp only [mergeStepIP, List.getLast?_cons_cons, List.getLast?_singleton]
      rw [if_neg (by decide), if_neg (by decide), if_pos (by norm_num), if_neg (by norm_num),
        if_neg (by norm_num), if_pos (by norm_num)]
      rfl
    simp only [foldPartial, List.map, etrim, List.filter, hflt, List.foldl, hmerge]
    simp only [sortByStart, List.insertionSort, List.orderedInsert, reindex, reindexFrom]
  rw [h1, h2]
  simp

/-- **C7 (amended)**: the empty-increment half of the claim holds — folding
an empty increment into an already-consistent Transcript (sorted by start,
ids `0..n-1`) leaves it unchanged.  Folding the same non-empty increment
twice can duplicate segments (see the counterexample). -/
theorem C7_empty_fold_identity (T : List SubtitleSegment)
    (hsort : T.Pairwise segLE)
    (hids : ∀ (i : ℕ) (h : i < T.length), (T.get ⟨i, h⟩).id = i) :
    foldPartial T [] = T := by
  simp only [foldPartial, List.map_nil, List.filter_nil, List.foldl_nil]
  rw [show sortByStart T = T from List.Sorted.insertionSort_eq hsort]
  exact reindexFrom_eq_self 0 T (by simpa using hids)

/-- Witness for C7 at a concrete consistent transcript. -/
theorem C7_empty_fold_identity_witness :
    ([(⟨0, 0, 1, "a"⟩ : SubtitleSegment), ⟨1, 2, 3, "b"⟩].Pairwise segLE
      ∧ (∀ (i : ℕ) (h : i < ([(⟨0, 0, 1, "a"⟩ : SubtitleSegment), ⟨1, 2, 3, "b"⟩]).length),
          (([(⟨0, 0, 1, "a"⟩ : SubtitleSegment), ⟨1, 2, 3, "b"⟩]).get ⟨i, h⟩).id = i))
    ∧ foldPartial [(⟨0, 0, 1, "a"⟩ : SubtitleSegment), ⟨1, 2, 3, "b"⟩] []
        = [(⟨0, 0, 1, "a"⟩ : SubtitleSegment), ⟨1, 2, 3, "b"⟩] := by
  have hsort : [(⟨0, 0, 1, "a"⟩ : SubtitleSegment), ⟨1, 2, 3, "b"⟩].Pairwise segLE := by
    simp [segLE]
  have hids : ∀ (i : ℕ) (h : i < ([(⟨0, 0, 1, "a"⟩ : SubtitleSegment), ⟨1, 2, 3, "b"⟩]).length),
      (([(⟨0, 0, 1, "a"⟩ : SubtitleSegment), ⟨1, 2, 3, "b"⟩]).get ⟨i, h⟩).id = i := by
    intro i h
    match i, h with
    | 0, _ => rfl
    | 1, _ => rfl
  exact ⟨⟨hsort, hids⟩, C7_empty_fold_identity _ hsort hids⟩

/-! ## Claim C4 — per-segment merge rules -/

/-- **C4 counterexample**: on the local-server path there is *no*
containment-drop branch.  With `last = ⟨0, 5, "hello"⟩` and the fully
contained incoming `seg = ⟨1, 4, "world"⟩` (overlap `5 - 1 = 4 ≥ 1.0 s`,
`seg.end = 4 ≤ 5 = last.end`), the claim says `seg` is dropped; the code
appends it unchanged. -/
theorem C4_containment_counterexample :
    mergeStepLS [⟨0, 0, 5, "hello"⟩] ⟨0, 1, 4, "world"⟩
      = [⟨0, 0, 5, "hello"⟩, ⟨0, 1, 4, "world"⟩]
    ∧ mergeStepLS [⟨0, 0, 5, "hello"⟩] ⟨0, 1, 4, "world"⟩ ≠ [⟨0, 0, 5, "hello"⟩] := by
  have h : mergeStepLS [⟨0, 0, 5, "hello"⟩] ⟨0, 1, 4, "world"⟩
      = [⟨0, 0, 5, "hello"⟩, ⟨0, 1, 4, "world"⟩] := by
    simp only [mergeStepLS, List.getLast?_singleton]
    rw [if_neg (by decide), if_neg (by decide)]
    norm_num
  exact ⟨h, by rw [h]; simp⟩

/-- **C4 (amended)**: the merge rules the two merging paths actually apply,
per incoming segment `seg` against the current last segment `last` (the
cloud path applies none of these rules — see C1).  In-process path: drop on
exact text equality; drop when the cleaned last text (lower-cased, all of
`.,?!` removed, trimmed) ends with the cleaned incoming text *and* the
cleaned incoming text is longer than 2; overlap smaller than 0.5 s is
clamped to `last.end` (kept only if `seg.end > last.end`); overlap at least
0.5 s with `seg.end ≤ last.end` is dropped; no overlap appends iff the
duration is positive.  Local-server path: drop on exact equality; drop on
the suffix rule with lower-case+trim cleaning only and length above 3;
overlap smaller than 1.0 s is clamped; overlap of 1.0 s or more is appended
unchanged whenever `seg.end > seg.start` — contained segments are *not*
dropped. -/
theorem C4_merge_rules (acc : List SubtitleSegment) (last seg : SubtitleSegment)
    (hlast : acc.getLast? = some last) :
    (seg.text = last.text → mergeStepIP acc seg = acc ∧ mergeStepLS acc seg = acc)
    ∧ (seg.text ≠ last.text → 2 < (cleanTextIP seg.text).length →
        listEndsWith (cleanTextIP last.text) (cleanTextIP seg.text) = true →
        mergeStepIP acc seg = acc)
    ∧ (seg.text ≠ last.text → 3 < (cleanTextLS seg.text).length →
        listEndsWith (cleanTextLS last.text) (cleanTextLS seg.text) = true →
        mergeStepLS acc seg = acc)
    ∧ (seg.text ≠ last.text →
        ¬ (2 < (cleanTextIP seg.text).length
            ∧ listEndsWith (cleanTextIP last.text) (cleanTextIP seg.text) = true) →
        seg.start < last.stop → last.stop - seg.start < 1/2 →
        mergeStepIP acc seg
          = if last.stop < seg.stop then acc ++ [{ seg with start := last.stop }] else acc)
    ∧ (seg.text ≠ last.text →
        ¬ (2 < (cleanTextIP seg.text).length
            ∧ listEndsWith (cleanTextIP last.text) (cleanTextIP seg.text) = true) →
        seg.start < last.stop → 1/2 ≤ last.stop - seg.start → seg.stop ≤ last.stop →
        mergeStepIP acc seg = acc)
    ∧ (seg.text ≠ last.text →
        ¬ (3 < (cleanTextLS seg.text).length
            ∧ listEndsWith (cleanTextLS last.text) (cleanTextLS seg.text) = true) →
        seg.start < last.stop → last.stop - seg.start < 1 →
        mergeStepLS acc seg
          = if last.stop < seg.stop then acc ++ [{ seg with start := last.stop }] else acc)
    ∧ (seg.text ≠ last.text →
        ¬ (3 < (cleanTextLS seg.text).length
            ∧ listEndsWith (cleanTextLS last.text) (cleanTextLS seg.text) = true) →
        seg.start < last.stop → 1 ≤ last.stop - seg.start →
        mergeStepLS acc seg = if seg.start < seg.stop then acc ++ [seg] else acc)
    ∧ (seg.text ≠ last.text →
        ¬ (2 < (cleanTextIP seg.text).length
            ∧ listEndsWith (cleanTextIP last.text) (cleanTextIP seg.text) = true) →
        last.stop ≤ seg.start →
        mergeStepIP acc seg = if seg.start < seg.stop then acc ++ [seg] else acc) := by
  refine ⟨?_, ?_, ?_, ?_, ?_, ?_, ?_, ?_⟩
  · intro heq
    constructor
    · simp only [mergeStepIP, hlast]
      rw [if_pos heq]
    · simp only [mergeStepLS, hlast]
      rw [if_pos heq]
  · intro hne hlen hsuf
    simp only [mergeStepIP, hlast]
    rw [if_neg hne, if_pos ⟨hlen, hsuf⟩]
  · intro hne hlen hsuf
    simp only [mergeStepLS, hlast]
    rw [if_neg hne, if_pos ⟨hlen, hsuf⟩]
  · intro hne hg hov hsmall
    simp only [mergeStepIP, hlast]
    rw [if_neg hne, if_neg hg, if_pos hov, if_pos hsmall]
  · intro hne hg hov hbig hcont
    simp only [mergeStepIP, hlast]
    rw [if_neg hne, if_neg hg, if_pos hov, if_neg (not_lt.mpr hbig), if_pos hcont]
  · intro hne hg hov hsmall
    simp only [mergeStepLS, hlast]
    rw [if_neg hne, if_neg hg,
      if_pos (show seg.start < last.stop ∧ last.stop - seg.start < 1 from ⟨hov, hsmall⟩)]
  · intro hne hg hov hbig
    simp only [mergeStepLS, hlast]
    rw [if_neg hne, if_neg hg,
      if_neg (show ¬ (seg.start < last.stop ∧ last.stop - seg.start < 1) from
        fun h => absurd h.2 (not_lt.mpr hbig))]
  · intro hne hg hnov
    simp only [mergeStepIP, hlast]
    rw [if_neg hne, if_neg hg, if_neg (not_lt.mpr hnov)]

/-- Witness for C4: the local-server step at a concrete large-overlap
contained segment (rule 7) and the exact-repeat rule (rule 1). -/
theorem C4_merge_rules_witness :
    (([(⟨0, 0, 5, "hello"⟩ : SubtitleSegment)]).getLast? = some ⟨0, 0, 5, "hello"⟩
      ∧ ((⟨0, 1, 4, "world"⟩ : SubtitleSegment)).text ≠ ("hello" : String)
      ∧ mergeStepLS [(⟨0, 0, 5, "hello"⟩ : SubtitleSegment)] ⟨0, 1, 4, "world"⟩
          = (if (⟨0, 1, 4, "world"⟩ : SubtitleSegment).start
                < (⟨0, 1, 4, "world"⟩ : SubtitleSegment).stop
             then [(⟨0, 0, 5, "hello"⟩ : SubtitleSegment)] ++ [⟨0, 1, 4, "world"⟩]
             else [(⟨0, 0, 5, "hello"⟩ : SubtitleSegment)]))
    ∧ mergeStepIP [(⟨0, 0, 5, "hello"⟩ : SubtitleSegment)] ⟨1, 5, 9, "hello"⟩
        = [(⟨0, 0, 5, "hello"⟩ : SubtitleSegment)] := by
  have h7 := (C4_merge_rules [(⟨0, 0, 5, "hello"⟩ : SubtitleSegment)]
    ⟨0, 0, 5, "hello"⟩ ⟨0, 1, 4, "world"⟩ rfl).2.2.2.2.2.2.1
    (by decide) (by decide) (by norm_num) (by norm_num)
  have h1 := ((C4_merge_rules [(⟨0, 0, 5, "hello"⟩ : SubtitleSegment)]
    ⟨0, 0, 5, "hello"⟩ ⟨1, 5, 9, "hello"⟩ rfl).1 rfl).1
  exact ⟨⟨rfl, by decide, h7⟩, h1⟩

theorem vocalFilterGo_length (a b : ℚ) :
    ∀ (l : List ℚ) (x y z : ℚ), (vocalFilterGo a b x y z l).length = l.length := by
  intro l
  induction l with
  | nil => intro x y z; rfl
  | cons c cs ih => intro x y z; simp [vocalFilterGo, ih]

theorem applyVocalFilter_length (a b : ℚ) (l : List ℚ) :
    (applyVocalFilter a b l).length = l.length :=
  vocalFilterGo_length a b l 0 0 0

theorem scanLoopF_pairwise_bounds (audio : List ℚ) (m t : ℚ) (hm : 0 < m) :
    ∀ (fuel i cur silStart : ℕ),
      (0 < cur → silStart + cur ≤ i ∧ silStart + cur ≤ audio.length) →
      (scanLoopF audio m t fuel i cur silStart).Pairwise (· < ·)
      ∧ ∀ s ∈ scanLoopF audio m t fuel i cur silStart,
          (if cur = 0 then i else silStart) ≤ s ∧ s < audio.length := by
  intro fuel
  induction fuel with
  | zero =>
    intro i cur silStart hinv
    simp only [scanLoopF, scanTrailing]
    split
    · next hpush =>
      have hcur : 0 < cur := by
        by_contra h
        push_neg at h
        interval_cases cur
        simp at hpush
        linarith
      obtain ⟨h1, h2⟩ := hinv hcur
      refine ⟨List.pairwise_singleton _ _, ?_⟩
      intro s hs
      simp only [List.mem_singleton] at hs
      subst hs
      have hne : cur ≠ 0 := Nat.pos_iff_ne_zero.mp hcur
      refine ⟨?_, ?_⟩
      · simp [hne]
      · have : cur / 2 < cur := Nat.div_lt_self hcur (by norm_num)
        omega
    · exact ⟨List.Pairwise.nil, by simp⟩
  | succ fuel ih =>
    intro i cur silStart hinv
    by_cases hi : i < audio.length
    · simp only [scanLoopF, if_pos hi]
      split
      · -- silent window: extend the run
        set e := min (i + 800) audio.length with he
        have hinv' : 0 < cur + (e - i) →
            (if cur = 0 then i else silStart) + (cur + (e - i)) ≤ i + 800
            ∧ (if cur = 0 then i else silStart) + (cur + (e - i)) ≤ audio.length := by
          intro _
          by_cases hc : cur = 0
          · subst hc
            rw [if_pos rfl]
            omega
          · obtain ⟨h1, h2⟩ := hinv (Nat.pos_of_ne_zero hc)
            rw [if_neg hc]
            omega
        obtain ⟨hpw, hball⟩ := ih (i + 800) (cur + (e - i)) (if cur = 0 then i else silStart) hinv'
        refine ⟨hpw, ?_⟩
        intro s hs
        obtain ⟨hlb, hub⟩ := hball s hs
        refine ⟨?_, hub⟩
        have hepos : 0 < e - i := by omega
        have hne : cur + (e - i) ≠ 0 := by omega
        rw [if_neg hne] at hlb
        by_cases hc : cur = 0
        · rw [if_pos hc]
          rw [if_pos hc] at hlb
          exact hlb
        · rw [if_neg hc]
          rw [if_neg hc] at hlb
          exact hlb
      · -- speech window
        split
        · -- push a split point
          next hpush =>
          have hcur : 0 < cur := by
            have : (0:ℚ) < (cur:ℚ) := lt_of_lt_of_le hm hpush
            exact_mod_cast this
          obtain ⟨h1, h2⟩ := hinv hcur
          obtain ⟨hpw, hball⟩ := ih (i + 800) 0 0 (by omega)
          have hhalf : cur / 2 < cur := Nat.div_lt_self hcur (by norm_num)
          have hsval : silStart + cur / 2 < i := by omega
          refine ⟨?_, ?_⟩
          · rw [List.pairwise_cons]
            refine ⟨?_, hpw⟩
            intro s hs
            have := (hball s hs).1
            rw [if_pos rfl] at this
            omega
          · intro s hs
            rcases List.mem_cons.mp hs with rfl | hs'
            · have hne : cur ≠ 0 := Nat.pos_iff_ne_zero.mp hcur
              refine ⟨by simp [hne], by omega⟩
            · obtain ⟨hlb, hub⟩ := hball s hs'
              rw [if_pos rfl] at hlb
              refine ⟨?_, hub⟩
              by_cases hc : cur = 0
              · rw [if_pos hc]; omega
              · rw [if_neg hc]
                obtain ⟨ha, _⟩ := hinv (Nat.pos_of_ne_zero hc)
                omega
        · -- no split: reset the run
          obtain ⟨hpw, hball⟩ := ih (i + 800) 0 0 (by omega)
          refine ⟨hpw, ?_⟩
          intro s hs
          obtain ⟨hlb, hub⟩ := hball s hs
          rw [if_pos rfl] at hlb
          refine ⟨?_, hub⟩
          by_cases hc : cur = 0
          · rw [if_pos hc]; omega
          · rw [if_neg hc]
            obtain ⟨ha, _⟩ := hinv (Nat.pos_of_ne_zero hc)
            omega
    · -- i ≥ length: trailing
      simp only [scanLoopF, if_neg hi, scanTrailing]
      split
      · next hpush =>
        have hcur : 0 < cur := by
          by_contra h
          push_neg at h
          interval_cases cur
          simp at hpush
          linarith
        obtain ⟨h1, h2⟩ := hinv hcur
        refine ⟨List.pairwise_singleton _ _, ?_⟩
        intro s hs
        simp only [List.mem_singleton] at hs
        subst hs
        have hne : cur ≠ 0 := Nat.pos_iff_ne_zero.mp hcur
        have : cur / 2 < cur := Nat.div_lt_self hcur (by norm_num)
        exact ⟨by simp [hne], by omega⟩
      · exact ⟨List.Pairwise.nil, by simp⟩

theorem yieldChunks_props (bank : ℕ) :
    ∀ (splits : List ℕ) (f0 g : ℕ),
      splits.Pairwise (· < ·) → (∀ s ∈ splits, f0 ≤ s) →
      ((yieldChunksFromSplits bank splits f0 g).1.map (fun c => c.index)
          = List.range' g (yieldChunksFromSplits bank splits f0 g).1.length
        ∧ (yieldChunksFromSplits bank splits f0 g).2.2
          = g + (yieldChunksFromSplits bank splits f0 g).1.length)
      ∧ List.Chain' (fun a b => a.stop ≤ b.start) (yieldChunksFromSplits bank splits f0 g).1
      ∧ (∀ c ∈ (yieldChunksFromSplits bank splits f0 g).1,
          bank + f0 ≤ c.start ∧ c.start < c.stop
          ∧ c.stop ≤ bank + (yieldChunksFromSplits bank splits f0 g).2.1)
      ∧ f0 ≤ (yieldChunksFromSplits bank splits f0 g).2.1
      ∧ ((yieldChunksFromSplits bank splits f0 g).2.1 = f0
          ∨ (yieldChunksFromSplits bank splits f0 g).2.1 ∈ splits) := by
  intro splits
  induction splits with
  | nil =>
    intro f0 g _ _
    simp [yieldChunksFromSplits]
  | cons sp rest ih =>
    intro f0 g hpw hlb
    have hpw' : rest.Pairwise (· < ·) := (List.pairwise_cons.mp hpw).2
    have hrest_gt : ∀ s ∈ rest, sp < s := (List.pairwise_cons.mp hpw).1
    have hlb' : ∀ s ∈ rest, sp ≤ s := fun s hs => le_of_lt (hrest_gt s hs)
    have hf0sp : f0 ≤ sp := hlb sp (List.mem_cons_self _ _)
    by_cases hdur : (1:ℚ)/5 < ((sp - f0 : ℕ) : ℚ) / 16000
    · -- the candidate chunk is long enough and is yielded
      have hlt : f0 < sp := by
        rcases Nat.lt_or_ge f0 sp with h | h
        · exact h
        · exfalso
          have : sp - f0 = 0 := by omega
          rw [this] at hdur
          norm_num at hdur
      obtain ⟨⟨hidx, hglen⟩, hchain, hmem, hle, hmemf⟩ := ih sp (g + 1) hpw' hlb'
      simp only [yieldChunksFromSplits, if_pos hdur]
      refine ⟨⟨?_, ?_⟩, ?_, ?_, ?_, ?_⟩
      · simp only [List.map_cons, List.length_cons, List.range'_succ, hidx]
      · simp only [List.length_cons, hglen]
        omega
      · rw [List.chain'_cons']
        refine ⟨?_, hchain⟩
        intro y hy
        have hymem : y ∈ (yieldChunksFromSplits bank rest sp (g + 1)).1 :=
          List.mem_of_mem_head? hy
        show bank + sp ≤ y.start
        exact (hmem y hymem).1
      · intro c hc
        rcases List.mem_cons.mp hc with rfl | hc'
        · refine ⟨le_refl _, ?_, ?_⟩
          · show bank + f0 < bank + sp
            omega
          · show bank + sp ≤ bank + (yieldChunksFromSplits bank rest sp (g + 1)).2.1
            omega
        · obtain ⟨h1, h2, h3⟩ := hmem c hc'
          exact ⟨le_trans (by omega) h1, h2, h3⟩
      · omega
      · rcases hmemf with h | h
        · exact Or.inr (by simp [h])
        · exact Or.inr (List.mem_cons_of_mem _ h)
    · -- micro-chunk: skipped, the frontier still advances
      obtain ⟨⟨hidx, hglen⟩, hchain, hmem, hle, hmemf⟩ := ih sp g hpw' hlb'
      simp only [yieldChunksFromSplits, if_neg hdur]
      refine ⟨⟨hidx, hglen⟩, hchain, ?_, by omega, ?_⟩
      · intro c hc
        obtain ⟨h1, h2, h3⟩ := hmem c hc
        exact ⟨le_trans (by omega) h1, h2, h3⟩
      · rcases hmemf with h | h
        · exact Or.inr (by simp [h])
        · exact Or.inr (List.mem_cons_of_mem _ h)

theorem scanForSplitPoints_pairwise_bounds (audio : List ℚ) (m t : ℚ) (hm : 0 < m) :
    (scanForSplitPoints audio m t).Pairwise (· < ·)
    ∧ ∀ s ∈ scanForSplitPoints audio m t, s < audio.length := by
  obtain ⟨h1, h2⟩ := scanLoopF_pairwise_bounds audio m t hm (audio.length + 1) 0 0 0
    (by omega)
  exact ⟨h1, fun s hs => (h2 s hs).2⟩

theorem vadLoopF_props (audioData : List ℚ) (aHp aLp : ℚ) (B : ℕ) (mS thr : ℚ)
    (filt : Bool) (hB : 0 < B) (hm : 0 < mS) :
    ∀ (fuel fp g : ℕ) (buffer : List ℚ) (bs : ℕ),
      bs + buffer.length = fp → fp ≤ audioData.length →
      audioData.length - fp < fuel →
      ((vadLoopF audioData aHp aLp B mS thr filt none fuel fp g buffer bs).map
          (fun c => c.index)
        = List.range' g (vadLoopF audioData aHp aLp B mS thr filt none fuel fp g buffer bs).length)
      ∧ List.Chain' (fun a b => a.stop ≤ b.start)
          (vadLoopF audioData aHp aLp B mS thr filt none fuel fp g buffer bs)
      ∧ (∀ c ∈ vadLoopF audioData aHp aLp B mS thr filt none fuel fp g buffer bs,
          bs ≤ c.start ∧ c.start < c.stop ∧ c.stop ≤ audioData.length)
      ∧ (fp < audioData.length →
          vadLoopF audioData aHp aLp B mS thr filt none fuel fp g buffer bs ≠ []
          ∧ (vadLoopF audioData aHp aLp B mS thr filt none fuel fp g buffer bs).getLast?.map
              (fun c => c.stop) = some audioData.length) := by
  intro fuel
  induction fuel with
  | zero =>
    intro fp g buffer bs hstate hfple hfuel
    omega
  | succ fuel ih =>
    intro fp g buffer bs hstate hfple hfuel
    by_cases hfp : fp < audioData.length
    · rw [show vadLoopF audioData aHp aLp B mS thr filt none (fuel + 1) fp g buffer bs
          = (let batchEnd := min (fp + B) audioData.length
             let newBatch := (audioData.drop fp).take (batchEnd - fp)
             let buf := buffer ++ newBatch
             let analysisBuffer :=
               if filt then applyVocalFilter aHp aLp buf else buf
             let splitIndices := scanForSplitPoints analysisBuffer mS thr
             let y := yieldChunksFromSplits bs splitIndices 0 g
             let yielded := y.1
             let lastSplitLocal := y.2.1
             let gIdx := y.2.2
             let leftoverSamples := buf.length - lastSplitLocal
             if audioData.length ≤ batchEnd || vadLimitStop none batchEnd then
               yielded ++
                 (if 0 < leftoverSamples then
                   [⟨gIdx, bs + lastSplitLocal, bs + buf.length⟩]
                 else [])
             else
               if 3 * B < leftoverSamples then
                 yielded ++ ⟨gIdx, bs + lastSplitLocal, bs + buf.length⟩ ::
                   vadLoopF audioData aHp aLp B mS thr filt none fuel batchEnd (gIdx + 1)
                     [] batchEnd
               else
                 yielded ++
                   vadLoopF audioData aHp aLp B mS thr filt none fuel batchEnd gIdx
                     (buf.drop lastSplitLocal) (bs + lastSplitLocal)) from by
        simp only [vadLoopF, if_pos hfp, if_neg (Nat.pos_iff_ne_zero.mp hB)]
        rfl]
      simp only []
      set batchEnd := min (fp + B) audioData.length with hbe
      set newBatch := (audioData.drop fp).take (batchEnd - fp) with hnb
      set buf := buffer ++ newBatch with hbuf
      set analysisBuffer := (if filt then applyVocalFilter aHp aLp buf else buf) with hab
      set splits := scanForSplitPoints analysisBuffer mS thr with hsp
      set y := yieldChunksFromSplits bs splits 0 g with hy
      have hfpbe : fp < batchEnd := by rw [hbe]; omega
      have hbele : batchEnd ≤ audioData.length := by rw [hbe]; omega
      have hnblen : newBatch.length = batchEnd - fp := by
        rw [hnb]
        simp only [List.length_take, List.length_drop]
        omega
      have hbuflen : buf.length = buffer.length + (batchEnd - fp) := by
        rw [hbuf]
        simp [hnblen]
      have hbsbuf : bs + buf.length = batchEnd := by omega
      have hbufpos : 0 < buf.length := by omega
      have hanlen : analysisBuffer.length = buf.length := by
        rw [hab]
        split
        · exact applyVocalFilter_length aHp aLp buf
        · rfl
      have hsplits := scanForSplitPoints_pairwise_bounds analysisBuffer mS thr hm
      have hsp_pw : splits.Pairwise (· < ·) := hsplits.1
      have hsp_lt : ∀ s ∈ splits, s < buf.length := fun s hs => hanlen ▸ hsplits.2 s hs
      obtain ⟨⟨hidx, hglen⟩, hychain, hymem, -, hlastF⟩ :=
        yieldChunks_props bs splits 0 g hsp_pw (fun s _ => Nat.zero_le s)
      rw [← hy] at hidx hglen hychain hymem hlastF
      have hlastF_lt : y.2.1 < buf.length := by
        rcases hlastF with h | h
        · rw [h]; exact hbufpos
        · exact hsp_lt _ h
      have hyield_stop : ∀ c ∈ y.1, bs ≤ c.start ∧ c.start < c.stop
          ∧ c.stop ≤ bs + y.2.1 := by
        intro c hc
        obtain ⟨h1, h2, h3⟩ := hymem c hc
        exact ⟨by omega, h2, h3⟩
      have hlim : vadLimitStop none batchEnd = false := rfl
      rw [hlim, Bool.or_false]
      by_cases hEOF : audioData.length ≤ batchEnd
      · -- end of waveform: flush the bank
        rw [if_pos (by rw [decide_eq_true hEOF])]
        rw [if_pos (show 0 < buf.length - y.2.1 by omega)]
        have hbeq : batchEnd = audioData.length := le_antisymm hbele hEOF
        have hflush_stop : bs + buf.length = audioData.length := by omega
        refine ⟨?_, ?_, ?_, ?_⟩
        · simp only [List.length_append, List.length_cons, List.length_nil, List.map_append,
            List.map_cons, List.map_nil, hidx]
          rw [show y.2.2 = g + 1 * y.1.length by omega]
          rw [← List.range'_concat g y.1.length]
        · refine List.Chain'.append hychain (List.chain'_singleton _) ?_
          intro x hx z hz
          simp only [List.head?_cons, Option.mem_def, Option.some.injEq] at hz
          subst hz
          have hxm : x ∈ y.1 := List.mem_of_mem_getLast? hx
          show x.stop ≤ bs + y.2.1
          exact (hyield_stop x hxm).2.2
        · intro c hc
          rcases List.mem_append.mp hc with hc' | hc'
          · obtain ⟨h1, h2, h3⟩ := hyield_stop c hc'
            exact ⟨h1, h2, by omega⟩
          · simp only [List.mem_singleton] at hc'
            subst hc'
            exact ⟨show bs ≤ bs + y.2.1 by omega,
              show bs + y.2.1 < bs + buf.length by omega,
              show bs + buf.length ≤ audioData.length by omega⟩
        · intro _
          refine ⟨by simp, ?_⟩
          rw [List.getLast?_append]
          simp [hflush_stop]
      · -- the loop continues
        rw [if_neg (by rw [decide_eq_false hEOF]; simp)]
        have hlt : batchEnd < audioData.length := lt_of_not_ge hEOF
        by_cases hforce : 3 * B < buf.length - y.2.1
        · -- forced split
          rw [if_pos hforce]
          obtain ⟨rid, rch, rmem, rlast⟩ := ih batchEnd (y.2.2 + 1) [] batchEnd
            (by simp) (le_of_lt hlt) (by omega)
          obtain ⟨rne, rlasteq⟩ := rlast hlt
          refine ⟨?_, ?_, ?_, ?_⟩
          · simp only [List.length_append, List.length_cons, List.map_append, List.map_cons,
              hidx, rid]
            rw [show y.2.2 = g + 1 * y.1.length by omega]
            rw [← List.range'_succ]
            rw [List.range'_append g y.1.length _ 1]
            rw [Nat.add_comm _ y.1.length]
          · refine List.Chain'.append hychain ?_ ?_
            · rw [List.chain'_cons']
              refine ⟨?_, rch⟩
              intro z hz
              have hzm := List.mem_of_mem_head? hz
              show bs + buf.length ≤ z.start
              have := (rmem z hzm).1
              omega
            · intro x hx z hz
              simp only [List.head?_cons, Option.mem_def, Option.some.injEq] at hz
              subst hz
              have hxm : x ∈ y.1 := List.mem_of_mem_getLast? hx
              show x.stop ≤ bs + y.2.1
              exact (hyield_stop x hxm).2.2
          · intro c hc
            rcases List.mem_append.mp hc with hc' | hc'
            · obtain ⟨h1, h2, h3⟩ := hyield_stop c hc'
              exact ⟨h1, h2, by omega⟩
            · rcases List.mem_cons.mp hc' with rfl | hc''
              · exact ⟨show bs ≤ bs + y.2.1 by omega,
                  show bs + y.2.1 < bs + buf.length by omega,
                  show bs + buf.length ≤ audioData.length by omega⟩
              · obtain ⟨h1, h2, h3⟩ := rmem c hc''
                exact ⟨by omega, h2, h3⟩
          · intro _
            refine ⟨by simp, ?_⟩
            rw [List.getLast?_append]
            rcases hrl : vadLoopF audioData aHp aLp B mS thr filt none fuel batchEnd
                (y.2.2 + 1) [] batchEnd with _ | ⟨d, ds⟩
            · exact absurd hrl rne
            · rw [hrl] at rlasteq
              obtain ⟨d', hd', hd'stop⟩ := Option.map_eq_some'.mp rlasteq
              rw [List.getLast?_cons_cons, hd']
              simp [hd'stop]
        · -- normal carry-over
          rw [if_neg hforce]
          obtain ⟨rid, rch, rmem, rlast⟩ := ih batchEnd y.2.2 (buf.drop y.2.1) (bs + y.2.1)
            (by simp only [List.length_drop]; omega) (le_of_lt hlt) (by omega)
          obtain ⟨rne, rlasteq⟩ := rlast hlt
          refine ⟨?_, ?_, ?_, ?_⟩
          · simp only [List.length_append, List.map_append, hidx, rid]
            rw [show y.2.2 = g + 1 * y.1.length by omega]
            rw [List.range'_append g y.1.length _ 1]
            rw [Nat.add_comm _ y.1.length]
          · refine List.Chain'.append hychain rch ?_
            intro x hx z hz
            have hxm : x ∈ y.1 := List.mem_of_mem_getLast? hx
            have hzm := List.mem_of_mem_head? hz
            have h1 := (hyield_stop x hxm).2.2
            have h2 := (rmem z hzm).1
            omega
          · intro c hc
            rcases List.mem_append.mp hc with hc' | hc'
            · obtain ⟨h1, h2, h3⟩ := hyield_stop c hc'
              exact ⟨h1, h2, by omega⟩
            · obtain ⟨h1, h2, h3⟩ := rmem c hc'
              exact ⟨by omega, h2, h3⟩
          · intro _
            refine ⟨by simp [rne], ?_⟩
            rw [List.getLast?_append]
            obtain ⟨d', hd', hd'stop⟩ := Option.map_eq_some'.mp rlasteq
            rw [hd']
            simp [hd'stop]
    · rw [show vadLoopF audioData aHp aLp B mS thr filt none (fuel + 1) fp g buffer bs = []
          from by simp [vadLoopF, if_neg hfp]]
      exact ⟨by simp, by simp, by simp, fun h => absurd h hfp⟩

theorem getVADChunks_ordered_disjoint (audioData : List ℚ) (aHp aLp : ℚ) (B : ℕ)
    (mS thr : ℚ) (filt : Bool) (hB : 0 < B) (hm : 0 < mS) :
    chunksOrderedDisjoint audioData.length
      (getVADChunks audioData aHp aLp B mS thr filt none) := by
  obtain ⟨hid, hch, hmem, hlast⟩ := vadLoopF_props audioData aHp aLp B mS thr filt hB hm
    (audioData.length + 1) 0 0 [] 0 rfl (Nat.zero_le _) (by omega)
  refine ⟨?_, hch, fun c hc => (hmem c hc).2, hlast⟩
  rw [List.range_eq_range']
  exact hid

theorem windowIsSilent_false_of_loud (w : List ℚ) (thr : ℚ)
    (h : ∀ x ∈ w, thr ^ 2 ≤ x * x) :
    windowIsSilent w thr = false := by
  simp only [windowIsSilent, Bool.and_eq_false_iff, decide_eq_false_iff_not, not_lt]
  right
  calc thr ^ 2 * w.length = ((w.map fun _ => thr ^ 2).sum) := by
        simp [List.sum_replicate, nsmul_eq_mul]; ring
    _ ≤ (w.map fun x => x * x).sum := List.sum_le_sum ?_
  intro i hi
  exact h i hi

theorem scanLoopF_no_silence (audio : List ℚ) (m thr : ℚ) (hm : 0 < m)
    (h : ∀ x ∈ audio, thr ^ 2 ≤ x * x) :
    ∀ (fuel i : ℕ), scanLoopF audio m thr fuel i 0 0 = [] := by
  intro fuel
  induction fuel with
  | zero =>
    intro i
    show scanTrailing m 0 0 = []
    rw [scanTrailing, if_neg]
    push_cast
    linarith
  | succ fuel ih =>
    intro i
    show (if i < audio.length then _ else scanTrailing m 0 0) = []
    by_cases hi : i < audio.length
    · rw [if_pos hi]
      have hw : windowIsSilent
          ((audio.drop i).take (min (i + 800) audio.length - i)) thr = false := by
        refine windowIsSilent_false_of_loud _ thr ?_
        intro x hx
        exact h x (List.mem_of_mem_drop (List.mem_of_mem_take hx))
      dsimp only
      rw [hw]
      rw [if_neg (by simp)]
      rw [if_neg (show ¬ m ≤ ((0 : ℕ) : ℚ) by push_cast; linarith)]
      exact ih (i + 800)
    · rw [if_neg hi]
      rw [scanTrailing, if_neg]
      push_cast
      linarith

theorem scanForSplitPoints_no_silence (audio : List ℚ) (m thr : ℚ) (hm : 0 < m)
    (h : ∀ x ∈ audio, thr ^ 2 ≤ x * x) :
    scanForSplitPoints audio m thr = [] :=
  scanLoopF_no_silence audio m thr hm h _ 0

theorem vadLoopF_no_silence (audioData : List ℚ) (aHp aLp : ℚ) (B : ℕ) (mS thr : ℚ)
    (hB : 0 < B) (hm : 0 < mS) (hloud : ∀ x ∈ audioData, thr ^ 2 ≤ x * x) :
    ∀ (fuel fp g : ℕ) (buffer : List ℚ) (bs : ℕ),
      bs + buffer.length = fp → fp ≤ audioData.length →
      audioData.length - fp < fuel →
      (∀ x ∈ buffer, x ∈ audioData) → buffer.length ≤ 3 * B →
      List.Chain' (fun a b => a.stop = b.start)
        (vadLoopF audioData aHp aLp B mS thr false none fuel fp g buffer bs)
      ∧ (∀ c ∈ vadLoopF audioData aHp aLp B mS thr false none fuel fp g buffer bs,
          c.stop - c.start ≤ 3 * B + B)
      ∧ (fp < audioData.length →
          (vadLoopF audioData aHp aLp B mS thr false none fuel fp g buffer bs).head?.map
            (fun c => c.start) = some bs) := by
  intro fuel
  induction fuel with
  | zero =>
    intro fp g buffer bs hstate hfple hfuel hbel hblen
    omega
  | succ fuel ih =>
    intro fp g buffer bs hstate hfple hfuel hbel hblen
    by_cases hfp : fp < audioData.length
    · rw [show vadLoopF audioData aHp aLp B mS thr false none (fuel + 1) fp g buffer bs
          = (let batchEnd := min (fp + B) audioData.length
             let newBatch := (audioData.drop fp).take (batchEnd - fp)
             let buf := buffer ++ newBatch
             let splits := scanForSplitPoints buf mS thr
             let y := yieldChunksFromSplits bs splits 0 g
             if audioData.length ≤ batchEnd || vadLimitStop none batchEnd then
               y.1 ++
                 (if 0 < buf.length - y.2.1 then
                   [⟨y.2.2, bs + y.2.1, bs + buf.length⟩]
                 else [])
             else
               if 3 * B < buf.length - y.2.1 then
                 y.1 ++ ⟨y.2.2, bs + y.2.1, bs + buf.length⟩ ::
                   vadLoopF audioData aHp aLp B mS thr false none fuel batchEnd (y.2.2 + 1)
                     [] batchEnd
               else
                 y.1 ++
                   vadLoopF audioData aHp aLp B mS thr false none fuel batchEnd y.2.2
                     (buf.drop y.2.1) (bs + y.2.1)) from by
        simp only [vadLoopF, if_pos hfp, if_neg (Nat.pos_iff_ne_zero.mp hB)]
        rfl]
      simp only []
      set batchEnd := min (fp + B) audioData.length with hbe
      set newBatch := (audioData.drop fp).take (batchEnd - fp) with hnb
      set buf := buffer ++ newBatch with hbuf
      have hfpbe : fp < batchEnd := by rw [hbe]; omega
      have hbele : batchEnd ≤ audioData.length := by rw [hbe]; omega
      have hnblen : newBatch.length = batchEnd - fp := by
        rw [hnb]
        simp only [List.length_take, List.length_drop]
        omega
      have hbuflen : buf.length = buffer.length + (batchEnd - fp) := by
        rw [hbuf]
        simp [hnblen]
      have hbsbuf : bs + buf.length = batchEnd := by omega
      have hbufpos : 0 < buf.length := by omega
      have hbufmem : ∀ x ∈ buf, x ∈ audioData := by
        intro x hx
        rcases List.mem_append.mp (hbuf ▸ hx) with h | h
        · exact hbel x h
        · exact List.mem_of_mem_drop (List.mem_of_mem_take h)
      have hspnil : scanForSplitPoints buf mS thr = [] :=
        scanForSplitPoints_no_silence buf mS thr hm fun x hx => hloud x (hbufmem x hx)
      rw [hspnil]
      simp only [yieldChunksFromSplits, List.nil_append, Nat.add_zero, Nat.sub_zero,
        List.drop_zero]
      have hlim : vadLimitStop none batchEnd = false := rfl
      rw [hlim, Bool.or_false]
      by_cases hEOF : audioData.length ≤ batchEnd
      · rw [if_pos (by rw [decide_eq_true hEOF])]
        rw [if_pos hbufpos]
        refine ⟨List.chain'_singleton _, ?_, ?_⟩
        · intro c hc
          simp only [List.mem_singleton] at hc
          subst hc
          show bs + buf.length - bs ≤ 3 * B + B
          omega
        · intro _
          simp
      · rw [if_neg (by rw [decide_eq_false hEOF]; simp)]
        have hlt : batchEnd < audioData.length := lt_of_not_ge hEOF
        by_cases hforce : 3 * B < buf.length
        · rw [if_pos hforce]
          obtain ⟨rch, rbound, rhead⟩ := ih batchEnd (g + 1) [] batchEnd
            (by simp) (le_of_lt hlt) (by omega) (by simp) (by simp)
          obtain ⟨z₀, hz₀, hz₀start⟩ := Option.map_eq_some'.mp (rhead hlt)
          refine ⟨?_, ?_, ?_⟩
          · rw [List.chain'_cons']
            refine ⟨?_, rch⟩
            intro z hz
            rw [hz₀] at hz
            have hzz : z₀ = z := by simpa using hz
            show bs + buf.length = z.start
            rw [← hzz]
            omega
          · intro c hc
            rcases List.mem_cons.mp hc with rfl | hc'
            · show bs + buf.length - bs ≤ 3 * B + B
              omega
            · exact rbound c hc'
          · intro _
            simp
        · rw [if_neg hforce]
          obtain ⟨rch, rbound, rhead⟩ := ih batchEnd g buf bs
            (by omega) (le_of_lt hlt) (by omega) hbufmem (by omega)
          exact ⟨rch, rbound, fun _ => rhead hlt⟩
    · rw [show vadLoopF audioData aHp aLp B mS thr false none (fuel + 1) fp g buffer bs = []
          from by simp [vadLoopF, if_neg hfp]]
      exact ⟨by simp, by simp, fun h => absurd h hfp⟩

theorem vadGapAudio_length : vadGapAudio.length = 1600 := by
  show (List.replicate 800 (0 : ℚ) ++ List.replicate 800 1).length = 1600
  rw [List.length_append, List.length_replicate, List.length_replicate]

theorem scanLoopF_step (audio : List ℚ) (m t : ℚ) (k i cur s e : ℕ)
    (hi : i < audio.length) (he : min (i + 800) audio.length = e) :
    scanLoopF audio m t (k + 1) i cur s =
    if windowIsSilent ((audio.drop i).take (e - i)) t then
      scanLoopF audio m t k (i + 800) (cur + (e - i)) (if cur = 0 then i else s)
    else if m ≤ (cur : ℚ) then
      (s + cur / 2) :: scanLoopF audio m t k (i + 800) 0 0
    else scanLoopF audio m t k (i + 800) 0 0 := by
  subst he
  conv_lhs => simp only [scanLoopF]
  rw [if_pos hi]

theorem scanLoopF_stop (audio : List ℚ) (m t : ℚ) (k i cur s : ℕ)
    (hi : ¬ i < audio.length) :
    scanLoopF audio m t (k + 1) i cur s = scanTrailing m cur s := by
  conv_lhs => simp only [scanLoopF]
  rw [if_neg hi]

theorem vadGap_window1 : windowIsSilent (List.replicate 800 (0 : ℚ)) (1/10) = true := by
  rw [windowIsSilent]
  have hsum : ((List.replicate 800 (0 : ℚ)).map fun x => x * x).sum = 0 := by
    rw [List.map_replicate, List.sum_replicate, zero_mul, smul_zero]
  rw [hsum]
  rw [decide_eq_true (show (0 : ℚ) ≤ 1/10 by norm_num),
    decide_eq_true (show (0 : ℚ) < (1/10) ^ 2 * (List.replicate 800 (0 : ℚ)).length by
      rw [List.length_replicate]
      norm_num)]
  rfl

theorem vadGap_window2 : windowIsSilent (List.replicate 800 (1 : ℚ)) (1/10) = false :=
  windowIsSilent_false_of_loud _ _ fun x hx => by
    rw [List.eq_of_mem_replicate hx]
    norm_num

theorem vadGap_scan (fuel : ℕ) :
    scanLoopF vadGapAudio 800 (1/10) (fuel + 3) 0 0 0 = [400] := by
  have hlen := vadGapAudio_length
  have hw1 : (vadGapAudio.drop 0).take (800 - 0) = List.replicate 800 (0 : ℚ) := by
    rw [List.drop_zero]
    show List.take (800 - 0) (List.replicate 800 (0 : ℚ) ++ List.replicate 800 1) = _
    exact List.take_left' (by rw [List.length_replicate])
  have hw2 : (vadGapAudio.drop 800).take (1600 - 800) = List.replicate 800 (1 : ℚ) := by
    rw [show vadGapAudio.drop 800 = List.replicate 800 (1 : ℚ) from
      List.drop_left' (by rw [List.length_replicate])]
    rw [List.take_replicate, show ((1600 - 800 : ℕ) ⊓ 800) = 800 from by decide]
  rw [show fuel + 3 = (fuel + 2) + 1 from rfl]
  rw [scanLoopF_step vadGapAudio 800 (1/10) (fuel + 2) 0 0 0 800
    (by rw [hlen]; decide) (by rw [hlen]; decide)]
  rw [hw1, vadGap_window1, if_pos rfl, if_pos rfl]
  rw [show (0 : ℕ) + (800 - 0) = 800 from rfl]
  rw [show fuel + 2 = (fuel + 1) + 1 from rfl]
  rw [scanLoopF_step vadGapAudio 800 (1/10) (fuel + 1) 800 800 0 1600
    (by rw [hlen]; decide) (by rw [hlen]; decide)]
  rw [hw2, vadGap_window2, if_neg (by simp)]
  rw [if_pos (show (800 : ℚ) ≤ ((800 : ℕ) : ℚ) by push_cast; norm_num)]
  rw [scanLoopF_stop vadGapAudio 800 (1/10) fuel (800 + 800) 0 0 (by rw [hlen]; decide)]
  rw [show scanTrailing 800 0 0
      = if (800 : ℚ) ≤ ((0 : ℕ) : ℚ) then [0 + 0 / 2] else [] from rfl]
  rw [if_neg (show ¬ (800 : ℚ) ≤ ((0 : ℕ) : ℚ) by push_cast; norm_num)]

theorem vadGap_splits : scanForSplitPoints vadGapAudio 800 (1/10) = [400] := by
  rw [scanForSplitPoints]
  rw [vadGapAudio_length, show (1600 : ℕ) + 1 = 1598 + 3 from rfl]
  exact vadGap_scan 1598

theorem vadGap_yield : yieldChunksFromSplits 0 [400] 0 0 = ([], 400, 0) := by
  simp only [yieldChunksFromSplits]
  rw [if_neg]
  push_cast
  norm_num

theorem vadLoopF_step (audioData : List ℚ) (aHp aLp : ℚ) (B : ℕ) (mS thr : ℚ)
    (filt : Bool) (k fp g : ℕ) (buffer : List ℚ) (bs bE : ℕ)
    (hfp : fp < audioData.length) (hB : ¬ B = 0)
    (hbE : min (fp + B) audioData.length = bE) :
    vadLoopF audioData aHp aLp B mS thr filt none (k + 1) fp g buffer bs =
    (let buf := buffer ++ (audioData.drop fp).take (bE - fp)
     let splits := scanForSplitPoints
       (if filt then applyVocalFilter aHp aLp buf else buf) mS thr
     let y := yieldChunksFromSplits bs splits 0 g
     if audioData.length ≤ bE || vadLimitStop none bE then
       y.1 ++ (if 0 < buf.length - y.2.1 then
         [⟨y.2.2, bs + y.2.1, bs + buf.length⟩] else [])
     else if 3 * B < buf.length - y.2.1 then
       y.1 ++ ⟨y.2.2, bs + y.2.1, bs + buf.length⟩ ::
         vadLoopF audioData aHp aLp B mS thr filt none k bE (y.2.2 + 1) [] bE
     else
       y.1 ++ vadLoopF audioData aHp aLp B mS thr filt none k bE y.2.2
         (buf.drop y.2.1) (bs + y.2.1)) := by
  subst hbE
  simp only [vadLoopF, if_pos hfp, if_neg hB]
  rfl

theorem vadGap_chunks :
    getVADChunks vadGapAudio 0 0 1600 800 (1/10) false none
      = [⟨0, 400, 1600⟩] := by
  rw [getVADChunks, vadGapAudio_length]
  rw [vadLoopF_step vadGapAudio 0 0 1600 800 (1/10) false 1600 0 0 [] 0 1600
    (by rw [vadGapAudio_length]; decide) (by decide)
    (by rw [vadGapAudio_length]; decide)]
  simp only []
  rw [List.nil_append]
  rw [show (vadGapAudio.drop 0).take (1600 - 0) = vadGapAudio from by
    rw [List.drop_zero, show (1600 : ℕ) - 0 = 1600 from rfl, ← vadGapAudio_length,
      List.take_length]]
  rw [if_neg (show ¬ (false = true) from by decide)]
  rw [vadGap_splits, vadGap_yield]
  rw [if_pos (by rw [vadGapAudio_length]; decide)]
  rw [if_pos (by rw [vadGapAudio_length]; decide)]
  rw [vadGapAudio_length]
  rfl

theorem vadGap_not_exact_cover :
    ¬ chunksExactCover vadGapAudio.length
      (getVADChunks vadGapAudio 0 0 1600 800 (1/10) false none) := by
  intro h
  obtain ⟨-, -, -, h4, -⟩ := h
  rw [vadGap_chunks] at h4
  have h5 := h4 (by rw [vadGapAudio_length]; decide)
  simp at h5

/-- **C8**: with no detectable silence anywhere (every sample's square is at
least the squared threshold, so no 50 ms window is ever classified silent),
the VAD segmenter still bounds every chunk: adjacent chunks share their
boundary sample exactly (`a.end = b.start`, i.e. the bank restarts exactly
where the forced split ended), and every chunk spans at most
`3·batch + batch` samples — the safety valve forces a split whenever the
carry-over exceeds `3·batch_size`. -/
theorem C8_forced_split_and_bank_restart (audioData : List ℚ) (aHp aLp : ℚ) (B : ℕ)
    (mS thr : ℚ) (hB : 0 < B) (hm : 0 < mS)
    (hloud : ∀ x ∈ audioData, thr ^ 2 ≤ x * x) :
    List.Chain' (fun a b => a.stop = b.start)
      (getVADChunks audioData aHp aLp B mS thr false none)
    ∧ ∀ c ∈ getVADChunks audioData aHp aLp B mS thr false none,
        c.stop - c.start ≤ 3 * B + B := by
  obtain ⟨h1, h2, -⟩ := vadLoopF_no_silence audioData aHp aLp B mS thr hB hm hloud
    (audioData.length + 1) 0 0 [] 0 rfl (Nat.zero_le _) (by omega) (by simp) (by simp)
  exact ⟨h1, h2⟩

/-- Witness for C8 on a 2.5 ms all-ones waveform with an 8-sample batch:
no window is silent, and every emitted chunk spans at most 32 samples. -/
theorem C8_forced_split_and_bank_restart_witness :
    List.Chain' (fun a b => a.stop = b.start)
      (getVADChunks (List.replicate 40 (1 : ℚ)) 0 0 8 1 1 false none)
    ∧ ∀ c ∈ getVADChunks (List.replicate 40 (1 : ℚ)) 0 0 8 1 1 false none,
        c.stop - c.start ≤ 3 * 8 + 8 :=
  C8_forced_split_and_bank_restart (List.replicate 40 1) 0 0 8 1 1 (by norm_num) (by norm_num)
    fun x hx => by
      rw [List.eq_of_mem_replicate hx]
      norm_num

/-- **C2 (amended)**: the fixed-schedule path does cover `[0, total_samples)`
exactly once with no gaps and no overlaps and indices `0, 1, 2, …`
(`chunksExactCover`); the VAD path guarantees only the weaker
`chunksOrderedDisjoint`: indices `0, 1, 2, …`, ordered non-overlapping chunks
inside `[0, total_samples)` whose last chunk ends at `total_samples` — chunks
need not be adjacent and the first chunk need not start at sample 0 (see
`C2_vad_gap_counterexample`). -/
theorem C2_segmenter_coverage :
    (∀ audioData : List ℚ,
      chunksExactCover audioData.length (getFixedChunks audioData 16000 none))
    ∧ ∀ (audioData : List ℚ) (aHp aLp : ℚ) (B : ℕ) (mS thr : ℚ) (filt : Bool),
        0 < B → 0 < mS →
        chunksOrderedDisjoint audioData.length
          (getVADChunks audioData aHp aLp B mS thr filt none) :=
  ⟨getFixedChunks_cover,
   fun a aHp aLp B mS thr filt hB hm =>
     getVADChunks_ordered_disjoint a aHp aLp B mS thr filt hB hm⟩

/-- Witness for C2 on a concrete 8-sample waveform. -/
theorem C2_segmenter_coverage_witness :
    chunksExactCover (List.replicate 8 (1 : ℚ)).length
      (getFixedChunks (List.replicate 8 (1 : ℚ)) 16000 none)
    ∧ chunksOrderedDisjoint (List.replicate 8 (1 : ℚ)).length
      (getVADChunks (List.replicate 8 (1 : ℚ)) 0 0 8 1 1 false none) :=
  ⟨C2_segmenter_coverage.1 (List.replicate 8 1),
   C2_segmenter_coverage.2 (List.replicate 8 1) 0 0 8 1 1 false (by norm_num) (by norm_num)⟩

/-- **C2 counterexample**: on `vadGapAudio` (0.05 s of silence, then 0.05 s of
speech) with `batch = 1600` samples, `min_silence = 800` samples and
`threshold = 0.1`, the VAD segmenter emits the single chunk `[400, 1600)`:
the sub-0.2 s candidate `[0, 400)` is discarded, so samples `0…399` belong to
no chunk — the VAD path does not cover `[0, total_samples)`. -/
theorem C2_vad_gap_counterexample :
    getVADChunks vadGapAudio 0 0 1600 800 (1/10) false none = [⟨0, 400, 1600⟩]
    ∧ ¬ chunksExactCover vadGapAudio.length
        (getVADChunks vadGapAudio 0 0 1600 800 (1/10) false none) :=
  ⟨vadGap_chunks, vadGap_not_exact_cover⟩
